import Mathlib

/-!
Verification of the `solveOptimalWithFixed` scheduling engine.

The engine assigns jobs (each with a duration in minutes, some pinned to a
team) to `teamCount` teams, minimizing the busiest team's load in a quantized
weight space.  The embedding below translates the source function and its
helpers (partitioning, quantization, the stable sorts, the greedy LPT
baseline, the memoized branch-and-bound search `dfs`, and the final
assembly) into executable Lean definitions.  JS arrays become `List`s
(indexed reads `xs[i]` become `List.getD`, writes become `List.set`),
JS `Set`s become lists used only for membership, and the stable
`Array.prototype.sort` becomes stable insertion sorts.  All arithmetic is on
`Nat` / `Int` (the source only ever handles nonnegative integers here;
`Math.round(m / q)` on naturals is round-half-up, embedded as
`(2*m + q) / (2*q)`).
-/

namespace BJ

/-- An input job: `{ name, minutes, fixedTeam }`.  `fixedTeam` is the 1-based
team the job is pinned to; 0 (or any out-of-range value) means unpinned. -/
structure Job where
  name : String
  minutes : Nat
  fixedTeam : Int
deriving DecidableEq, Repr

/-- A job as it appears in the output: `{ name, minutes }`. -/
structure JobM where
  name : String
  minutes : Nat
deriving DecidableEq, Repr

/-- A free work item produced by quantization: `{ name, minutes, w }`. -/
structure Item where
  name : String
  minutes : Nat
  w : Nat
deriving DecidableEq, Repr

/-- One output team: `{ jobs, totalMinutes }`. -/
structure TeamOut where
  jobs : List JobM
  totalMinutes : Nat
deriving DecidableEq, Repr

def toJobM (j : Job) : JobM := ⟨j.name, j.minutes⟩

/-- `Math.max(...l)` for an array of naturals (0 on the empty list, which the
algorithm never evaluates when `teamCount ≥ 1`). -/
def maxList (l : List Nat) : Nat := l.foldr max 0

/-- Minimum of a nonempty list of naturals (0 on the empty list, never hit). -/
def minD : List Nat → Nat
  | [] => 0
  | x :: xs => xs.foldl min x

/-- `Math.round(n / q)` for naturals `n`, `q` with `q > 0`: round half up. -/
def jsRound (n q : Nat) : Nat := (2 * n + q) / (2 * q)

def sumItW (l : List Item) : Nat := (l.map Item.w).sum

def sumItMin (l : List Item) : Nat := (l.map Item.minutes).sum

/-- The test `job.fixedTeam && job.fixedTeam >= 1 && job.fixedTeam <= teamCount`
(the truthiness conjunct is subsumed by `1 ≤ fixedTeam`). -/
def inFixedRange (tc : Nat) (j : Job) : Bool :=
  1 ≤ j.fixedTeam && j.fixedTeam ≤ (tc : Int)

/-- The 0-based index `job.fixedTeam - 1` used for the fixed buckets. -/
def teamIdx (j : Job) : Nat := (j.fixedTeam - 1).toNat

/-- One step of the partition loop: pinned jobs accumulate into
`fixedLoads` / `fixedAssign`, the rest are appended to `free`. -/
def partitionStep (tc : Nat) (acc : List Nat × List (List JobM) × List Job)
    (j : Job) : List Nat × List (List JobM) × List Job :=
  if inFixedRange tc j then
    let i := teamIdx j
    (acc.1.set i (acc.1.getD i 0 + j.minutes),
     acc.2.1.set i (acc.2.1.getD i [] ++ [toJobM j]),
     acc.2.2)
  else
    (acc.1, acc.2.1, acc.2.2 ++ [j])

/-- The `for (const job of jobsMinutes)` partition loop. -/
def partitionJobs (jobs : List Job) (tc : Nat) :
    List Nat × List (List JobM) × List Job :=
  jobs.foldl (partitionStep tc) (List.replicate tc 0, List.replicate tc [], [])

def fixedLoads (jobs : List Job) (tc : Nat) : List Nat := (partitionJobs jobs tc).1

def fixedAssign (jobs : List Job) (tc : Nat) : List (List JobM) :=
  (partitionJobs jobs tc).2.1

def freeJobs (jobs : List Job) (tc : Nat) : List Job := (partitionJobs jobs tc).2.2

/-- `const q = Math.max(1, quant | 0)`. -/
def quantQ (quant : Nat) : Nat := max 1 quant

/-- `baseW`: quantized per-team fixed loads, with the fix-up loop forcing a
weight of 1 for a team with nonzero fixed minutes whose rounding produced 0. -/
def baseW (jobs : List Job) (tc quant : Nat) : List Nat :=
  ((fixedLoads jobs tc).map (fun m => jsRound m (quantQ quant))).zipWith
    (fun r m => if 0 < m ∧ r = 0 then 1 else r) (fixedLoads jobs tc)

/-- Build a free `WorkItem`: `{ name, minutes, w: max(1, round(minutes / q)) }`. -/
def mkItem (q : Nat) (j : Job) : Item :=
  ⟨j.name, j.minutes, max 1 (jsRound j.minutes q)⟩

/-- Stable insertion for the descending-by-weight sort
(`.sort((a, b) => b.w - a.w)`, stable per ES2019): an element passes over
strictly heavier elements only, so tied weights keep input order. -/
def insertDescW (x : Item) : List Item → List Item
  | [] => [x]
  | y :: ys => if x.w < y.w then y :: insertDescW x ys else x :: y :: ys

def sortDescW : List Item → List Item
  | [] => []
  | x :: xs => insertDescW x (sortDescW xs)

/-- The sorted free items the search runs over. -/
def freeItems (jobs : List Job) (tc quant : Nat) : List Item :=
  sortDescW ((freeJobs jobs tc).map (mkItem (quantQ quant)))

/-- The inner loop of the greedy baseline: first index of the minimum load
(`if (loads0[i] < loads0[best]) best = i` keeps the earliest minimum). -/
def bestIdx : List Nat → Nat
  | [] => 0
  | [_] => 0
  | x :: y :: ys =>
    let b := bestIdx (y :: ys)
    if x ≤ (y :: ys).getD b 0 then 0 else b + 1

/-- One greedy step: put the item on the least-loaded team. -/
def greedyStep (acc : List Nat × List (List Item)) (it : Item) :
    List Nat × List (List Item) :=
  let b := bestIdx acc.1
  (acc.1.set b (acc.1.getD b 0 + it.w),
   acc.2.set b (acc.2.getD b [] ++ [it]))

/-- The greedy LPT baseline (`loads0` / `assign0` in the source). -/
def greedy (base : List Nat) (items : List Item) :
    List Nat × List (List Item) :=
  items.foldl greedyStep (base, List.replicate base.length [])

/-- Stable ascending insertion sort of naturals, for the memo key
(`loads.slice().sort((a, b) => a - b)`). -/
def insertAsc (x : Nat) : List Nat → List Nat
  | [] => [x]
  | y :: ys => if y < x then y :: insertAsc x ys else x :: y :: ys

def sortAsc : List Nat → List Nat
  | [] => []
  | x :: xs => insertAsc x (sortAsc xs)

/-- The memo key `idx + "|" + sortedLoads.join(",")`, kept structured (the
string encoding is injective on such pairs). -/
def keyOf (idx : Nat) (loads : List Nat) : Nat × List Nat := (idx, sortAsc loads)

/-- Stable insertion for the candidate-team ordering
(`.sort((a, b) => loads[a] - loads[b])`): ascending by current load,
tied loads keep ascending index order. -/
def insertIdxByLoad (loads : List Nat) (x : Nat) : List Nat → List Nat
  | [] => [x]
  | y :: ys =>
    if loads.getD y 0 < loads.getD x 0 then y :: insertIdxByLoad loads x ys
    else x :: y :: ys

def sortIdxByLoad (loads : List Nat) : List Nat → List Nat
  | [] => []
  | x :: xs => insertIdxByLoad loads x (sortIdxByLoad loads xs)

/-- `const order = Array.from({length: teamCount}, (_, i) => i)
      .sort((a, b) => loads[a] - loads[b])` (here `teamCount = loads.length`). -/
def orderOf (loads : List Nat) : List Nat :=
  sortIdxByLoad loads (List.range loads.length)

/-- The mutable search context of the source: the best makespan so far, the
best assignment so far, and the visited-key set `seen`. -/
structure BB where
  bestMakespanW : Nat
  bestAssign : List (List Item)
  seen : List (Nat × List Nat)
deriving DecidableEq, Repr

/-- The `for (const i of order)` loop body of `dfs`: skip a team whose load
was already tried at this node, skip a branch whose `newLoad` would reach the
current best, otherwise descend via `child` (the recursive call one item
deeper; `loads` / `assign` are restored after each branch, which the
functional style gives for free). -/
def tryTeams (w : Nat) (it : Item)
    (child : List Nat → List (List Item) → BB → BB)
    (loads : List Nat) (assign : List (List Item)) :
    List Nat → List Nat → BB → BB
  | [], _, s => s
  | i :: is, tried, s =>
    let v := loads.getD i 0
    if v ∈ tried then tryTeams w it child loads assign is tried s
    else
      let newLoad := v + w
      if s.bestMakespanW ≤ newLoad then
        tryTeams w it child loads assign is (v :: tried) s
      else
        tryTeams w it child loads assign is (v :: tried)
          (child (loads.set i newLoad)
            (assign.set i (assign.getD i [] ++ [it])) s)

/-- The branch-and-bound search `dfs(idx)`, with the remaining items made
explicit (`rest = freeItems.slice(idx)`).  At the terminal depth it records a
strictly better makespan; otherwise it prunes on the lower bound
`max(avgLB, baseMax, currentMax)`, then on the memo key, then branches over
the teams in ascending-load order. -/
def dfs (avgLB baseMax : Nat) :
    List Item → Nat → List Nat → List (List Item) → BB → BB
  | [], _, loads, assign, s =>
    let mk := maxList loads
    if mk < s.bestMakespanW then ⟨mk, assign, s.seen⟩ else s
  | it :: rest, idx, loads, assign, s =>
    let currentMax := maxList loads
    let lb := max (max avgLB baseMax) currentMax
    if s.bestMakespanW ≤ lb then s
    else
      let k := keyOf idx loads
      if k ∈ s.seen then s
      else
        tryTeams it.w it
          (fun l a b => dfs avgLB baseMax rest (idx + 1) l a b)
          loads assign (orderOf loads) [] ⟨s.bestMakespanW, s.bestAssign, k :: s.seen⟩

def sumBase (jobs : List Job) (tc quant : Nat) : Nat := (baseW jobs tc quant).sum

def sumFree (jobs : List Job) (tc quant : Nat) : Nat :=
  sumItW (freeItems jobs tc quant)

/-- `Math.ceil((sumBase + sumFree) / teamCount)` (exact on naturals). -/
def avgLB (jobs : List Job) (tc quant : Nat) : Nat :=
  (sumBase jobs tc quant + sumFree jobs tc quant + tc - 1) / tc

def baseMax (jobs : List Job) (tc quant : Nat) : Nat := maxList (baseW jobs tc quant)

def loads0 (jobs : List Job) (tc quant : Nat) : List Nat :=
  (greedy (baseW jobs tc quant) (freeItems jobs tc quant)).1

def assign0 (jobs : List Job) (tc quant : Nat) : List (List Item) :=
  (greedy (baseW jobs tc quant) (freeItems jobs tc quant)).2

/-- The search context right after the greedy baseline seeded it. -/
def greedyState (jobs : List Job) (tc quant : Nat) : BB :=
  ⟨maxList (loads0 jobs tc quant), assign0 jobs tc quant, []⟩

/-- The search context after `dfs(0)` returns. -/
def solveState (jobs : List Job) (tc quant : Nat) : BB :=
  dfs (avgLB jobs tc quant) (baseMax jobs tc quant)
    (freeItems jobs tc quant) 0 (baseW jobs tc quant)
    (List.replicate tc []) (greedyState jobs tc quant)

/-- Stable insertion for the presentation sort
(`jobs.sort((a, b) => b.minutes - a.minutes)`). -/
def insertJobDesc (x : JobM) : List JobM → List JobM
  | [] => [x]
  | y :: ys => if x.minutes < y.minutes then y :: insertJobDesc x ys else x :: y :: ys

def sortJobsDesc : List JobM → List JobM
  | [] => []
  | x :: xs => insertJobDesc x (sortJobsDesc xs)

/-- The final assembly: each team gets its fixed jobs followed by the best
free assignment, the exact (unquantized) minute total, and the
descending-by-minutes presentation sort. -/
def solveOptimalWithFixed (jobs : List Job) (tc quant : Nat) : List TeamOut :=
  let s := solveState jobs tc quant
  (List.range tc).map fun i =>
    { jobs := sortJobsDesc ((fixedAssign jobs tc).getD i [] ++
        (s.bestAssign.getD i []).map (fun it => (⟨it.name, it.minutes⟩ : JobM))),
      totalMinutes := (fixedLoads jobs tc).getD i 0 +
        sumItMin (s.bestAssign.getD i []) }

/-- The per-team quantized loads induced by `base` and an assignment of items
to teams: team `i` carries `base[i]` plus the weights of its items. -/
def loadsOfAssign (base : List Nat) (asg : List (List Item)) : List Nat :=
  List.zipWith (fun b a => b + sumItW a) base asg

/-- All single-item extensions of a load vector: put a weight `w` on each
team in turn.  This enumerates the children of a search node. -/
def childStates (w : Nat) : List Nat → List (List Nat)
  | [] => []
  | x :: xs => ((x + w) :: xs) :: (childStates w xs).map (x :: ·)

/-- Minimum achievable makespan when the items of `rest` are assigned to the
teams of the load vector `loads`, each item to exactly one team.  This is the
mathematical yardstick the search is measured against. -/
def bestCompletion : List Item → List Nat → Nat
  | [], loads => maxList loads
  | it :: rest, loads =>
    minD ((childStates it.w loads).map fun l => bestCompletion rest l)

/-- The set of makespans achievable by distributing `items` over `tc` teams
on top of `base` (each item on exactly one team). -/
def AchievableMakespans (base : List Nat) (items : List Item) (tc : Nat) :
    Set Nat :=
  { m | ∃ asg : List (List Item), asg.length = tc ∧ asg.flatten.Perm items ∧
    m = maxList (loadsOfAssign base asg) }

/-- Validity of a search node: `assign` distributes exactly the first `idx`
items of the full (sorted) free list `F`, the remaining ones being `rest`,
and `loads` is the induced load vector over the quantized fixed loads
`base`. -/
def VState (base : List Nat) (F : List Item) (tc : Nat)
    (rest : List Item) (idx : Nat) (loads : List Nat)
    (assign : List (List Item)) : Prop :=
  assign.length = tc ∧ loads = loadsOfAssign base assign ∧
  ∃ done : List Item, F = done ++ rest ∧ done.length = idx ∧
    assign.flatten.Perm done

/-- The best-so-far data of a search context is honest: `bestAssign` is a
complete assignment of all free items and `bestMakespanW` is its makespan. -/
def GoodBB (base : List Nat) (F : List Item) (tc : Nat) (s : BB) : Prop :=
  s.bestAssign.length = tc ∧ s.bestAssign.flatten.Perm F ∧
  s.bestMakespanW = maxList (loadsOfAssign base s.bestAssign)

/-- A small concrete input (one free job, one job pinned to team 1) used to
instantiate the theorems below on a closed example. -/
def exampleJobs : List Job := [⟨"A", 2, 0⟩, ⟨"B", 1, 1⟩]

/-- Every memoized key at depth `idx` or deeper has been fully accounted for:
no completion from a state with those (sorted) loads can beat `best`. -/
def SeenInv (F : List Item) (seen : List (Nat × List Nat))
    (best idx : Nat) : Prop :=
  ∀ p ∈ seen, idx ≤ p.1 → best ≤ bestCompletion (F.drop p.1) p.2

/-- The full postcondition of a `dfs` call on a valid node: the best makespan
never grows, stays honest, the memo invariant holds, the result is at most
the best completion from this node, the best assignment only changes on a
strict improvement, and new memo keys are this node's key or deeper ones. -/
def DfsPost (base : List Nat) (F : List Item) (tc : Nat)
    (rest : List Item) (idx : Nat) (loads : List Nat) (s out : BB) : Prop :=
  out.bestMakespanW ≤ s.bestMakespanW ∧
  GoodBB base F tc out ∧
  SeenInv F out.seen out.bestMakespanW idx ∧
  out.bestMakespanW ≤ bestCompletion rest loads ∧
  (out.bestAssign ≠ s.bestAssign → out.bestMakespanW < s.bestMakespanW) ∧
  (∀ p ∈ out.seen, p ∈ s.seen ∨ p = keyOf idx loads ∨ idx + 1 ≤ p.1)

/-- Postcondition of the team loop at a node for item `it`: bookkeeping as in
`DfsPost`, plus the guarantee that every load value in `tried` and every team
in `teamList` has been accounted for against the best makespan. -/
def TTPost (base : List Nat) (F : List Item) (tc : Nat) (it : Item)
    (rest : List Item) (idx : Nat) (loads : List Nat)
    (teamList tried : List Nat) (s out : BB) : Prop :=
  out.bestMakespanW ≤ s.bestMakespanW ∧
  GoodBB base F tc out ∧
  SeenInv F out.seen out.bestMakespanW (idx + 1) ∧
  (out.bestAssign ≠ s.bestAssign → out.bestMakespanW < s.bestMakespanW) ∧
  (∀ p ∈ out.seen, p ∈ s.seen ∨ idx + 1 ≤ p.1) ∧
  (∀ v ∈ tried, out.bestMakespanW ≤
    bestCompletion rest ((v + it.w) :: loads.erase v)) ∧
  (∀ i ∈ teamList, out.bestMakespanW ≤
    bestCompletion rest (loads.set i (loads.getD i 0 + it.w)))

/-! ### Elementary list lemmas (indexing, sums, max, min, permutations) -/

theorem getD_set_self {α : Type} (d : α) :
    ∀ (l : List α) (i : Nat) (x : α), i < l.length → (l.set i x).getD i d = x
  | _ :: _, 0, _, _ => rfl
  | a :: l, i + 1, x, h =>
    getD_set_self d l i x (Nat.lt_of_succ_lt_succ (by simpa using h))

theorem getD_set_ne {α : Type} (d : α) :
    ∀ (l : List α) (i j : Nat) (x : α), i ≠ j →
      (l.set i x).getD j d = l.getD j d
  | [], _, _, _, _ => rfl
  | _ :: _, 0, 0, _, hne => absurd rfl hne
  | _ :: _, 0, _ + 1, _, _ => rfl
  | _ :: _, _ + 1, 0, _, _ => rfl
  | a :: l, i + 1, j + 1, x, hne =>
    getD_set_ne d l i j x (fun h => hne (by omega))

theorem mem_getD {α : Type} (d : α) :
    ∀ (l : List α) (i : Nat), i < l.length → l.getD i d ∈ l
  | a :: l, 0, _ => List.mem_cons_self a l
  | a :: l, i + 1, h =>
    List.mem_cons_of_mem a
      (mem_getD d l i (Nat.lt_of_succ_lt_succ (by simpa using h)))

theorem sum_set_add :
    ∀ (l : List Nat) (i m : Nat), i < l.length →
      (l.set i (l.getD i 0 + m)).sum = l.sum + m
  | a :: l, 0, m, _ => by simp [List.sum_cons]; omega
  | a :: l, i + 1, m, h => by
    have ih := sum_set_add l i m (Nat.lt_of_succ_lt_succ (by simpa using h))
    simp only [List.set, List.getD_cons_succ, List.sum_cons, ih]
    omega

theorem set_perm_cons_eraseIdx :
    ∀ (l : List Nat) (i x : Nat), i < l.length →
      (l.set i x).Perm (x :: l.eraseIdx i)
  | _ :: _, 0, _, _ => List.Perm.refl _
  | a :: l, i + 1, x, h => by
    have ih := set_perm_cons_eraseIdx l i x (Nat.lt_of_succ_lt_succ (by simpa using h))
    simpa using ((ih.cons a).trans (List.Perm.swap x a _))

theorem getD_cons_eraseIdx_perm :
    ∀ (l : List Nat) (i : Nat), i < l.length →
      (l.getD i 0 :: l.eraseIdx i).Perm l
  | _ :: _, 0, _ => List.Perm.refl _
  | a :: l, i + 1, h => by
    have ih := getD_cons_eraseIdx_perm l i (Nat.lt_of_succ_lt_succ (by simpa using h))
    simpa using (List.Perm.swap a (l.getD i 0) _).trans (ih.cons a)

theorem le_maxList_of_mem : ∀ {l : List Nat} {x : Nat}, x ∈ l → x ≤ maxList l := by
  intro l
  induction l with
  | nil => intro x h; cases h
  | cons a l ih =>
    intro x h
    rcases List.mem_cons.mp h with h | h
    · simpa [maxList, h] using Nat.le_max_left _ _
    · exact le_trans (ih h) (by simpa [maxList] using Nat.le_max_right _ _)

theorem maxList_le {l : List Nat} {m : Nat} (h : ∀ x ∈ l, x ≤ m) :
    maxList l ≤ m := by
  induction l with
  | nil => exact Nat.zero_le m
  | cons a l ih =>
    simp only [maxList, List.foldr_cons] at *
    exact max_le (h a (List.mem_cons_self a l)) (ih fun x hx => h x (List.mem_cons_of_mem a hx))

theorem maxList_perm {l l' : List Nat} (h : l.Perm l') : maxList l = maxList l' :=
  le_antisymm
    (maxList_le fun x hx => le_maxList_of_mem (h.mem_iff.mp hx))
    (maxList_le fun x hx => le_maxList_of_mem (h.mem_iff.mpr hx))

theorem sum_le_length_mul_maxList (l : List Nat) :
    l.sum ≤ l.length * maxList l := by
  induction l with
  | nil => simp
  | cons a l ih =>
    have h1 : a ≤ maxList (a :: l) := le_maxList_of_mem (List.mem_cons_self a l)
    have h2 : maxList l ≤ maxList (a :: l) :=
      maxList_le fun x hx => le_maxList_of_mem (List.mem_cons_of_mem a hx)
    calc (a :: l).sum = a + l.sum := by simp
    _ ≤ maxList (a :: l) + l.length * maxList l := Nat.add_le_add h1 ih
    _ ≤ maxList (a :: l) + l.length * maxList (a :: l) :=
        Nat.add_le_add_left (Nat.mul_le_mul_left _ h2) _
    _ = (a :: l).length * maxList (a :: l) := by simp [Nat.succ_mul]; omega

theorem foldl_min_le_init : ∀ (xs : List Nat) (x : Nat), xs.foldl min x ≤ x := by
  intro xs
  induction xs with
  | nil => intro x; exact le_refl x
  | cons y ys ih =>
    intro x
    exact le_trans (ih (min x y)) (min_le_left x y)

theorem foldl_min_le_mem :
    ∀ (xs : List Nat) (x a : Nat), a ∈ xs → xs.foldl min x ≤ a := by
  intro xs
  induction xs with
  | nil => intro x a h; cases h
  | cons y ys ih =>
    intro x a h
    rcases List.mem_cons.mp h with h | h
    · subst h
      simp only [List.foldl_cons]
      exact le_trans (foldl_min_le_init ys (min x a)) (min_le_right x a)
    · exact ih (min x y) a h

theorem foldl_min_mem : ∀ (xs : List Nat) (x : Nat), xs.foldl min x ∈ x :: xs := by
  intro xs
  induction xs with
  | nil => intro x; simp
  | cons y ys ih =>
    intro x
    simp only [List.foldl_cons]
    rcases List.mem_cons.mp (ih (min x y)) with h | h
    · rw [h]
      rcases min_choice x y with hc | hc
      · rw [hc]; exact List.mem_cons_self _ _
      · rw [hc]; exact List.mem_cons_of_mem _ (List.mem_cons_self _ _)
    · exact List.mem_cons_of_mem _ (List.mem_cons_of_mem _ h)

theorem minD_mem {l : List Nat} (h : l ≠ []) : minD l ∈ l := by
  cases l with
  | nil => exact absurd rfl h
  | cons x xs => exact foldl_min_mem xs x

theorem minD_le {l : List Nat} {x : Nat} (h : x ∈ l) : minD l ≤ x := by
  cases l with
  | nil => cases h
  | cons y ys =>
    rcases List.mem_cons.mp h with h | h
    · exact h ▸ foldl_min_le_init ys y
    · exact foldl_min_le_mem ys y x h

theorem le_minD {l : List Nat} {c : Nat} (hne : l ≠ [])
    (h : ∀ x ∈ l, c ≤ x) : c ≤ minD l :=
  h _ (minD_mem hne)

/-! ### The four stable insertion sorts: permutation, sortedness, stability -/

theorem insertAsc_perm (x : Nat) : ∀ l : List Nat, (insertAsc x l).Perm (x :: l)
  | [] => List.Perm.refl _
  | y :: ys => by
    simp only [insertAsc]
    split
    · exact ((insertAsc_perm x ys).cons y).trans (List.Perm.swap x y ys)
    · exact List.Perm.refl _

theorem sortAsc_perm : ∀ l : List Nat, (sortAsc l).Perm l
  | [] => List.Perm.refl _
  | x :: xs => (insertAsc_perm x (sortAsc xs)).trans ((sortAsc_perm xs).cons x)

theorem insertDescW_perm (x : Item) : ∀ l : List Item, (insertDescW x l).Perm (x :: l)
  | [] => List.Perm.refl _
  | y :: ys => by
    simp only [insertDescW]
    split
    · exact ((insertDescW_perm x ys).cons y).trans (List.Perm.swap x y ys)
    · exact List.Perm.refl _

theorem sortDescW_perm : ∀ l : List Item, (sortDescW l).Perm l
  | [] => List.Perm.refl _
  | x :: xs => (insertDescW_perm x (sortDescW xs)).trans ((sortDescW_perm xs).cons x)

theorem insertIdxByLoad_perm (loads : List Nat) (x : Nat) :
    ∀ l : List Nat, (insertIdxByLoad loads x l).Perm (x :: l)
  | [] => List.Perm.refl _
  | y :: ys => by
    simp only [insertIdxByLoad]
    split
    · exact ((insertIdxByLoad_perm loads x ys).cons y).trans (List.Perm.swap x y ys)
    · exact List.Perm.refl _

theorem sortIdxByLoad_perm (loads : List Nat) :
    ∀ l : List Nat, (sortIdxByLoad loads l).Perm l
  | [] => List.Perm.refl _
  | x :: xs =>
    (insertIdxByLoad_perm loads x (sortIdxByLoad loads xs)).trans
      ((sortIdxByLoad_perm loads xs).cons x)

theorem orderOf_perm_range (loads : List Nat) :
    (orderOf loads).Perm (List.range loads.length) :=
  sortIdxByLoad_perm loads (List.range loads.length)

theorem mem_orderOf {loads : List Nat} {i : Nat} (h : i < loads.length) :
    i ∈ orderOf loads :=
  (orderOf_perm_range loads).mem_iff.mpr (List.mem_range.mpr h)

theorem insertJobDesc_perm (x : JobM) : ∀ l : List JobM, (insertJobDesc x l).Perm (x :: l)
  | [] => List.Perm.refl _
  | y :: ys => by
    simp only [insertJobDesc]
    split
    · exact ((insertJobDesc_perm x ys).cons y).trans (List.Perm.swap x y ys)
    · exact List.Perm.refl _

theorem sortJobsDesc_perm : ∀ l : List JobM, (sortJobsDesc l).Perm l
  | [] => List.Perm.refl _
  | x :: xs => (insertJobDesc_perm x (sortJobsDesc xs)).trans ((sortJobsDesc_perm xs).cons x)

theorem insertDescW_sorted {x : Item} {l : List Item}
    (h : l.Pairwise (fun a b => b.w ≤ a.w)) :
    (insertDescW x l).Pairwise (fun a b => b.w ≤ a.w) := by
  induction l with
  | nil => simp [insertDescW]
  | cons y ys ih =>
    rcases List.pairwise_cons.mp h with ⟨hy, hys⟩
    simp only [insertDescW]
    split
    · next hlt =>
      refine List.pairwise_cons.mpr ⟨?_, ih hys⟩
      intro z hz
      rcases List.mem_cons.mp ((insertDescW_perm x ys).mem_iff.mp hz) with rfl | hz
      · exact Nat.le_of_lt hlt
      · exact hy z hz
    · next hge =>
      refine List.pairwise_cons.mpr ⟨?_, h⟩
      intro z hz
      rcases List.mem_cons.mp hz with rfl | hz
      · exact Nat.le_of_not_lt hge
      · exact le_trans (hy z hz) (Nat.le_of_not_lt hge)

theorem sortDescW_sorted : ∀ l : List Item,
    (sortDescW l).Pairwise (fun a b => b.w ≤ a.w)
  | [] => List.Pairwise.nil
  | x :: xs => insertDescW_sorted (sortDescW_sorted xs)

theorem insertJobDesc_sorted {x : JobM} {l : List JobM}
    (h : l.Pairwise (fun a b => b.minutes ≤ a.minutes)) :
    (insertJobDesc x l).Pairwise (fun a b => b.minutes ≤ a.minutes) := by
  induction l with
  | nil => simp [insertJobDesc]
  | cons y ys ih =>
    rcases List.pairwise_cons.mp h with ⟨hy, hys⟩
    simp only [insertJobDesc]
    split
    · next hlt =>
      refine List.pairwise_cons.mpr ⟨?_, ih hys⟩
      intro z hz
      rcases List.mem_cons.mp ((insertJobDesc_perm x ys).mem_iff.mp hz) with rfl | hz
      · exact Nat.le_of_lt hlt
      · exact hy z hz
    · next hge =>
      refine List.pairwise_cons.mpr ⟨?_, h⟩
      intro z hz
      rcases List.mem_cons.mp hz with rfl | hz
      · exact Nat.le_of_not_lt hge
      · exact le_trans (hy z hz) (Nat.le_of_not_lt hge)

theorem sortJobsDesc_sorted : ∀ l : List JobM,
    (sortJobsDesc l).Pairwise (fun a b => b.minutes ≤ a.minutes)
  | [] => List.Pairwise.nil
  | x :: xs => insertJobDesc_sorted (sortJobsDesc_sorted xs)

theorem filter_insertDescW_of_eq {x : Item} {v : Nat} (hx : x.w = v) :
    ∀ l : List Item, (insertDescW x l).filter (fun it => it.w == v) =
      x :: l.filter (fun it => it.w == v)
  | [] => by simp [insertDescW, hx]
  | y :: ys => by
    simp only [insertDescW]
    split
    · next hlt =>
      have hy : (y.w == v) = false := by
        simp only [beq_eq_false_iff_ne, ne_eq]
        omega
      simp [List.filter_cons, hy, filter_insertDescW_of_eq hx ys]
    · next hge =>
      simp [List.filter_cons, hx]

theorem filter_insertDescW_of_ne {x : Item} {v : Nat} (hx : x.w ≠ v) :
    ∀ l : List Item, (insertDescW x l).filter (fun it => it.w == v) =
      l.filter (fun it => it.w == v)
  | [] => by simp [insertDescW, hx]
  | y :: ys => by
    simp only [insertDescW]
    split
    · simp [List.filter_cons, filter_insertDescW_of_ne hx ys]
    · simp [List.filter_cons, hx]

theorem sortDescW_filter (v : Nat) : ∀ l : List Item,
    (sortDescW l).filter (fun it => it.w == v) = l.filter (fun it => it.w == v)
  | [] => rfl
  | x :: xs => by
    rcases eq_or_ne x.w v with hx | hx
    · rw [sortDescW, filter_insertDescW_of_eq hx, sortDescW_filter v xs,
        List.filter_cons_of_pos (by simpa using hx)]
    · rw [sortDescW, filter_insertDescW_of_ne hx, sortDescW_filter v xs,
        List.filter_cons_of_neg (by simpa using hx)]

theorem filter_insertJobDesc_of_eq {x : JobM} {v : Nat} (hx : x.minutes = v) :
    ∀ l : List JobM, (insertJobDesc x l).filter (fun j => j.minutes == v) =
      x :: l.filter (fun j => j.minutes == v)
  | [] => by simp [insertJobDesc, hx]
  | y :: ys => by
    simp only [insertJobDesc]
    split
    · next hlt =>
      have hy : (y.minutes == v) = false := by
        simp only [beq_eq_false_iff_ne, ne_eq]
        omega
      simp [List.filter_cons, hy, filter_insertJobDesc_of_eq hx ys]
    · next hge =>
      simp [List.filter_cons, hx]

theorem filter_insertJobDesc_of_ne {x : JobM} {v : Nat} (hx : x.minutes ≠ v) :
    ∀ l : List JobM, (insertJobDesc x l).filter (fun j => j.minutes == v) =
      l.filter (fun j => j.minutes == v)
  | [] => by simp [insertJobDesc, hx]
  | y :: ys => by
    simp only [insertJobDesc]
    split
    · simp [List.filter_cons, filter_insertJobDesc_of_ne hx ys]
    · simp [List.filter_cons, hx]

theorem sortJobsDesc_filter (v : Nat) : ∀ l : List JobM,
    (sortJobsDesc l).filter (fun j => j.minutes == v) =
      l.filter (fun j => j.minutes == v)
  | [] => rfl
  | x :: xs => by
    rcases eq_or_ne x.minutes v with hx | hx
    · rw [sortJobsDesc, filter_insertJobDesc_of_eq hx, sortJobsDesc_filter v xs,
        List.filter_cons_of_pos (by simpa using hx)]
    · rw [sortJobsDesc, filter_insertJobDesc_of_ne hx, sortJobsDesc_filter v xs,
        List.filter_cons_of_neg (by simpa using hx)]

/-! ### Children of a search node and the minimum completion makespan -/

theorem set_mem_childStates (w : Nat) :
    ∀ (l : List Nat) (i : Nat), i < l.length →
      l.set i (l.getD i 0 + w) ∈ childStates w l
  | x :: xs, 0, _ => by simp [childStates]
  | x :: xs, i + 1, h => by
    simp only [childStates, List.set_cons_succ, List.getD_cons_succ]
    exact List.mem_cons_of_mem _
      (List.mem_map_of_mem (x :: ·)
        (set_mem_childStates w xs i (Nat.lt_of_succ_lt_succ (by simpa using h))))

theorem of_mem_childStates {w : Nat} :
    ∀ {l l' : List Nat}, l' ∈ childStates w l →
      ∃ i, i < l.length ∧ l' = l.set i (l.getD i 0 + w) := by
  intro l
  induction l with
  | nil => intro l' h; simp [childStates] at h
  | cons x xs ih =>
    intro l' h
    rcases List.mem_cons.mp h with rfl | h
    · exact ⟨0, by simp, rfl⟩
    · obtain ⟨c, hc, rfl⟩ := List.mem_map.mp h
      obtain ⟨i, hi, rfl⟩ := ih hc
      exact ⟨i + 1, by simpa using Nat.succ_lt_succ hi, rfl⟩

theorem childStates_ne_nil (w : Nat) {l : List Nat} (h : l ≠ []) :
    childStates w l ≠ [] := by
  cases l with
  | nil => exact absurd rfl h
  | cons x xs => simp [childStates]

theorem length_of_mem_childStates {w : Nat} {l l' : List Nat}
    (h : l' ∈ childStates w l) : l'.length = l.length := by
  obtain ⟨i, _, rfl⟩ := of_mem_childStates h
  simp

theorem sum_of_mem_childStates {w : Nat} {l l' : List Nat}
    (h : l' ∈ childStates w l) : l'.sum = l.sum + w := by
  obtain ⟨i, hi, rfl⟩ := of_mem_childStates h
  exact sum_set_add l i w hi

theorem maxList_le_of_mem_childStates {w : Nat} {l l' : List Nat}
    (h : l' ∈ childStates w l) : maxList l ≤ maxList l' := by
  obtain ⟨i, hi, rfl⟩ := of_mem_childStates h
  rw [maxList_perm (getD_cons_eraseIdx_perm l i hi).symm,
    maxList_perm (set_perm_cons_eraseIdx l i (l.getD i 0 + w) hi)]
  simp only [maxList, List.foldr_cons]
  exact max_le_max (Nat.le_add_right _ w) (le_refl _)

theorem childStates_exchange {w : Nat} {l1 l2 : List Nat} (h : l1.Perm l2) :
    ∀ l2' ∈ childStates w l2, ∃ l1' ∈ childStates w l1, l1'.Perm l2' := by
  induction h with
  | nil => intro l2' h2; simp [childStates] at h2
  | cons a h ih =>
    intro l2' h2
    rcases List.mem_cons.mp h2 with rfl | h2
    · exact ⟨_, List.mem_cons_self _ _, h.cons _⟩
    · obtain ⟨c2, hc2, rfl⟩ := List.mem_map.mp h2
      obtain ⟨c1, hc1, hp⟩ := ih c2 hc2
      exact ⟨a :: c1, List.mem_cons_of_mem _ (List.mem_map_of_mem _ hc1), hp.cons a⟩
  | swap x y l =>
    intro l2' h2
    rcases List.mem_cons.mp h2 with rfl | h2
    · refine ⟨y :: (x + w) :: l, ?_, List.Perm.swap _ _ _⟩
      simp [childStates]
    · rcases List.mem_map.mp h2 with ⟨c, hc, rfl⟩
      rcases List.mem_cons.mp hc with rfl | hc
      · exact ⟨(y + w) :: x :: l, List.mem_cons_self _ _, List.Perm.swap _ _ _⟩
      · obtain ⟨c0, hc0, rfl⟩ := List.mem_map.mp hc
        refine ⟨y :: x :: c0, ?_, List.Perm.swap _ _ _⟩
        simp only [childStates]
        exact List.mem_cons_of_mem _
          (List.mem_map_of_mem (y :: ·)
            (List.mem_cons_of_mem _ (List.mem_map_of_mem (x :: ·) hc0)))
  | trans h1 h2 ih1 ih2 =>
    intro l3' h3
    obtain ⟨l2', hl2, hp2⟩ := ih2 l3' h3
    obtain ⟨l1', hl1, hp1⟩ := ih1 l2' hl2
    exact ⟨l1', hl1, hp1.trans hp2⟩

theorem bcMap_ne_nil (rest : List Item) (w : Nat) {l : List Nat} (h : l ≠ []) :
    (childStates w l).map (fun c => bestCompletion rest c) ≠ [] := by
  simpa using childStates_ne_nil w h

theorem bestCompletion_perm :
    ∀ (rest : List Item) {l1 l2 : List Nat}, l1.Perm l2 →
      bestCompletion rest l1 = bestCompletion rest l2 := by
  intro rest
  induction rest with
  | nil => intro l1 l2 h; exact maxList_perm h
  | cons it rest ih =>
    intro l1 l2 h
    rcases eq_or_ne l1 [] with rfl | hne1
    · rw [h.symm.eq_nil]
    · have hne2 : l2 ≠ [] := fun h2 => hne1 (by rw [h2] at h; exact h.eq_nil)
      simp only [bestCompletion]
      apply le_antisymm
      · obtain ⟨m, hm, heq⟩ :=
          List.mem_map.mp (minD_mem (bcMap_ne_nil rest it.w hne2))
        obtain ⟨c1, hc1, hp⟩ := childStates_exchange h m hm
        calc minD ((childStates it.w l1).map fun c => bestCompletion rest c)
            ≤ bestCompletion rest c1 := minD_le (List.mem_map_of_mem _ hc1)
          _ = bestCompletion rest m := ih hp
          _ = _ := heq
      · obtain ⟨m, hm, heq⟩ :=
          List.mem_map.mp (minD_mem (bcMap_ne_nil rest it.w hne1))
        obtain ⟨c2, hc2, hp⟩ := childStates_exchange h.symm m hm
        calc minD ((childStates it.w l2).map fun c => bestCompletion rest c)
            ≤ bestCompletion rest c2 := minD_le (List.mem_map_of_mem _ hc2)
          _ = bestCompletion rest m := ih hp
          _ = _ := heq

theorem bestCompletion_le_child {it : Item} {rest : List Item}
    {l l' : List Nat} (h : l' ∈ childStates it.w l) :
    bestCompletion (it :: rest) l ≤ bestCompletion rest l' :=
  minD_le (List.mem_map_of_mem _ h)

theorem maxList_le_bestCompletion :
    ∀ (rest : List Item) (l : List Nat), l ≠ [] →
      maxList l ≤ bestCompletion rest l
  | [], _, _ => le_refl _
  | it :: rest, l, hne => by
    simp only [bestCompletion]
    apply le_minD (bcMap_ne_nil _ _ hne)
    intro x hx
    obtain ⟨c, hc, rfl⟩ := List.mem_map.mp hx
    have hcne : c ≠ [] := by
      have := length_of_mem_childStates hc
      intro h0
      rw [h0] at this
      exact hne (List.eq_nil_of_length_eq_zero this.symm)
    exact le_trans (maxList_le_of_mem_childStates hc)
      (maxList_le_bestCompletion rest c hcne)

theorem sum_add_le_mul_bestCompletion :
    ∀ (rest : List Item) (l : List Nat), l ≠ [] →
      l.sum + sumItW rest ≤ l.length * bestCompletion rest l
  | [], l, _ => by
    simpa [bestCompletion, sumItW] using sum_le_length_mul_maxList l
  | it :: rest, l, hne => by
    simp only [bestCompletion]
    obtain ⟨m, hm, heq⟩ := List.mem_map.mp (minD_mem (bcMap_ne_nil rest it.w hne))
    have hcne : m ≠ [] := by
      have := length_of_mem_childStates hm
      intro h0
      rw [h0] at this
      exact hne (List.eq_nil_of_length_eq_zero this.symm)
    have hmin : minD ((childStates it.w l).map fun c => bestCompletion rest c) =
        bestCompletion rest m := by
      apply le_antisymm (minD_le (List.mem_map_of_mem _ hm))
      rw [heq]
    have ih := sum_add_le_mul_bestCompletion rest m hcne
    rw [hmin]
    rw [sum_of_mem_childStates hm, length_of_mem_childStates hm] at ih
    simp only [sumItW, List.map_cons, List.sum_cons] at *
    omega

/-! ### Load vectors of assignments -/

theorem of_mem_list {α : Type} (d : α) {l : List α} {a : α} (h : a ∈ l) :
    ∃ i, i < l.length ∧ l.getD i d = a := by
  induction l with
  | nil => cases h
  | cons x xs ih =>
    rcases List.mem_cons.mp h with rfl | h
    · exact ⟨0, by simp, rfl⟩
    · obtain ⟨i, hi, hget⟩ := ih h
      exact ⟨i + 1, by simpa using Nat.succ_lt_succ hi, hget⟩

theorem sumItW_perm {l1 l2 : List Item} (h : l1.Perm l2) : sumItW l1 = sumItW l2 :=
  (h.map Item.w).sum_eq

theorem sumItMin_perm {l1 l2 : List Item} (h : l1.Perm l2) :
    sumItMin l1 = sumItMin l2 :=
  (h.map Item.minutes).sum_eq

theorem sumItW_append (l1 l2 : List Item) :
    sumItW (l1 ++ l2) = sumItW l1 + sumItW l2 := by
  simp [sumItW]

theorem sumItMin_append (l1 l2 : List Item) :
    sumItMin (l1 ++ l2) = sumItMin l1 + sumItMin l2 := by
  simp [sumItMin]

theorem length_loadsOfAssign (base : List Nat) (asg : List (List Item)) :
    (loadsOfAssign base asg).length = min base.length asg.length := by
  simp [loadsOfAssign]

theorem getD_loadsOfAssign :
    ∀ (base : List Nat) (asg : List (List Item)) (i : Nat),
      i < base.length → i < asg.length →
      (loadsOfAssign base asg).getD i 0 =
        base.getD i 0 + sumItW (asg.getD i [])
  | _ :: _, _ :: _, 0, _, _ => rfl
  | b :: bs, a :: as_, i + 1, h1, h2 =>
    getD_loadsOfAssign bs as_ i (Nat.lt_of_succ_lt_succ (by simpa using h1))
      (Nat.lt_of_succ_lt_succ (by simpa using h2))
  | [], _, i, h1, _ => absurd h1 (by simp)
  | _ :: _, [], i, _, h2 => absurd h2 (by simp)

theorem loadsOfAssign_set_set :
    ∀ (base : List Nat) (asg : List (List Item)) (i : Nat) (x : Nat)
      (a : List Item),
      loadsOfAssign (base.set i x) (asg.set i a) =
        (loadsOfAssign base asg).set i (x + sumItW a)
  | [], _, _, _, _ => by simp [loadsOfAssign]
  | _ :: _, [], _, _, _ => by simp [loadsOfAssign]
  | b :: bs, a0 :: as_, 0, x, a => by simp [loadsOfAssign]
  | b :: bs, a0 :: as_, i + 1, x, a => by
    simp only [loadsOfAssign, List.set_cons_succ, List.zipWith_cons_cons]
    rw [show List.zipWith (fun b a => b + sumItW a) (bs.set i x) (as_.set i a) =
      loadsOfAssign (bs.set i x) (as_.set i a) from rfl,
      loadsOfAssign_set_set bs as_ i x a]
    rfl

theorem loadsOfAssign_set_right :
    ∀ (base : List Nat) (asg : List (List Item)) (i : Nat) (a : List Item),
      i < base.length →
      loadsOfAssign base (asg.set i a) =
        (loadsOfAssign base asg).set i (base.getD i 0 + sumItW a)
  | [], _, _, _, h => absurd h (by simp)
  | b :: bs, [], i, a, h => by simp [loadsOfAssign]
  | b :: bs, a0 :: as_, 0, a, _ => by simp [loadsOfAssign]
  | b :: bs, a0 :: as_, i + 1, a, h => by
    simp only [loadsOfAssign, List.set_cons_succ, List.zipWith_cons_cons,
      List.getD_cons_succ]
    rw [show List.zipWith (fun b a => b + sumItW a) bs (as_.set i a) =
      loadsOfAssign bs (as_.set i a) from rfl,
      loadsOfAssign_set_right bs as_ i a (Nat.lt_of_succ_lt_succ (by simpa using h))]
    rfl

theorem set_getD_self {α : Type} (d : α) :
    ∀ (l : List α) (i : Nat), i < l.length → l.set i (l.getD i d) = l
  | [], _, h => absurd h (by simp)
  | a :: l, 0, _ => rfl
  | a :: l, i + 1, h => by
    simp only [List.set_cons_succ, List.getD_cons_succ]
    rw [set_getD_self d l i (Nat.lt_of_succ_lt_succ (by simpa using h))]

theorem loadsOfAssign_replicate_nil :
    ∀ (base : List Nat), loadsOfAssign base (List.replicate base.length []) = base
  | [] => rfl
  | b :: bs => by
    simp only [List.length_cons, List.replicate_succ, loadsOfAssign,
      List.zipWith_cons_cons]
    rw [show List.zipWith (fun b a => b + sumItW a) bs (List.replicate bs.length []) =
      loadsOfAssign bs (List.replicate bs.length []) from rfl,
      loadsOfAssign_replicate_nil bs]
    simp [sumItW]

theorem loadsOfAssign_sum :
    ∀ (base : List Nat) (asg : List (List Item)), asg.length = base.length →
      (loadsOfAssign base asg).sum = base.sum + sumItW asg.flatten
  | [], [], _ => by simp [loadsOfAssign, sumItW]
  | [], _ :: _, h => by simp at h
  | _ :: _, [], h => by simp at h
  | b :: bs, a :: as_, h => by
    simp only [loadsOfAssign, List.zipWith_cons_cons, List.sum_cons,
      List.flatten_cons, sumItW_append]
    rw [show List.zipWith (fun b a => b + sumItW a) bs as_ =
      loadsOfAssign bs as_ from rfl,
      loadsOfAssign_sum bs as_ (by simpa using h)]
    omega

/-! ### Flatten and permutations -/

theorem flatten_set_append_perm {α : Type} :
    ∀ (L : List (List α)) (i : Nat) (x : α), i < L.length →
      ((L.set i (L.getD i [] ++ [x])).flatten).Perm (L.flatten ++ [x])
  | [], _, _, h => absurd h (by simp)
  | a :: L, 0, x, _ => by
    simp only [List.set_cons_zero, List.getD_cons_zero, List.flatten_cons,
      List.append_assoc]
    exact (show ([x] ++ L.flatten).Perm (L.flatten ++ [x]) from
      List.perm_append_comm).append_left a
  | a :: L, i + 1, x, h => by
    simp only [List.set_cons_succ, List.getD_cons_succ, List.flatten_cons,
      List.append_assoc]
    exact (flatten_set_append_perm L i x
      (Nat.lt_of_succ_lt_succ (by simpa using h))).append_left a

theorem flatten_set_erase_perm :
    ∀ (L : List (List Item)) (i : Nat) (it : Item), i < L.length →
      it ∈ L.getD i [] →
      (it :: (L.set i ((L.getD i []).erase it)).flatten).Perm L.flatten
  | [], _, _, h, _ => absurd h (by simp)
  | a :: L, 0, it, _, hmem => by
    simp only [List.set_cons_zero, List.getD_cons_zero, List.flatten_cons]
    exact ((List.perm_cons_erase hmem).symm.append_right L.flatten)
  | a :: L, i + 1, it, h, hmem => by
    simp only [List.set_cons_succ, List.getD_cons_succ, List.flatten_cons] at *
    exact List.perm_middle.symm.trans
      ((flatten_set_erase_perm L i it
        (Nat.lt_of_succ_lt_succ (by simpa using h)) hmem).append_left a)

/-! ### Every concrete assignment's makespan bounds the best completion -/

theorem loadsOfAssign_all_nil :
    ∀ (base : List Nat) (asg : List (List Item)), asg.length = base.length →
      (∀ a ∈ asg, a = []) → loadsOfAssign base asg = base
  | [], [], _, _ => rfl
  | [], _ :: _, h, _ => by simp at h
  | _ :: _, [], h, _ => by simp at h
  | b :: bs, a :: as_, h, hall => by
    simp only [loadsOfAssign, List.zipWith_cons_cons]
    rw [show List.zipWith (fun b a => b + sumItW a) bs as_ =
      loadsOfAssign bs as_ from rfl,
      loadsOfAssign_all_nil bs as_ (by simpa using h)
        (fun x hx => hall x (List.mem_cons_of_mem _ hx)),
      hall a (List.mem_cons_self _ _)]
    simp [sumItW]

theorem bestCompletion_le_assign :
    ∀ (items : List Item) (loads : List Nat) (asg : List (List Item)),
      asg.length = loads.length → loads ≠ [] → asg.flatten.Perm items →
      bestCompletion items loads ≤ maxList (loadsOfAssign loads asg) := by
  intro items
  induction items with
  | nil =>
    intro loads asg hlen hne hperm
    have hflat : asg.flatten = [] := hperm.eq_nil
    have hall : ∀ a ∈ asg, a = [] := by
      intro a ha
      refine List.eq_nil_iff_forall_not_mem.mpr fun x hx => ?_
      have hx2 : x ∈ asg.flatten := List.mem_flatten.mpr ⟨a, ha, hx⟩
      rw [hflat] at hx2
      cases hx2
    rw [loadsOfAssign_all_nil loads asg hlen hall]
    exact le_refl _
  | cons it rest ih =>
    intro loads asg hlen hne hperm
    have hit : it ∈ asg.flatten := hperm.mem_iff.mpr (List.mem_cons_self _ _)
    obtain ⟨a, ha, hita⟩ := List.mem_flatten.mp hit
    obtain ⟨i, hi, hgi⟩ := of_mem_list [] ha
    have hil : i < loads.length := hlen ▸ hi
    have hchild : loads.set i (loads.getD i 0 + it.w) ∈ childStates it.w loads :=
      set_mem_childStates it.w loads i hil
    have hitgd : it ∈ asg.getD i [] := hgi ▸ hita
    have hperm' : (asg.set i ((asg.getD i []).erase it)).flatten.Perm rest := by
      have h1 := flatten_set_erase_perm asg i it hi hitgd
      exact (h1.trans hperm).cons_inv
    have hlen' : (asg.set i ((asg.getD i []).erase it)).length =
        (loads.set i (loads.getD i 0 + it.w)).length := by
      simp [hlen]
    have hne' : loads.set i (loads.getD i 0 + it.w) ≠ [] := by
      intro h0
      apply hne
      have hl := congrArg List.length h0
      rw [List.length_set] at hl
      exact List.eq_nil_of_length_eq_zero (by simpa using hl)
    have hkey : loadsOfAssign (loads.set i (loads.getD i 0 + it.w))
        (asg.set i ((asg.getD i []).erase it)) = loadsOfAssign loads asg := by
      rw [loadsOfAssign_set_set]
      have hsum : sumItW (asg.getD i []) = it.w + sumItW ((asg.getD i []).erase it) := by
        have := sumItW_perm (List.perm_cons_erase hitgd)
        simpa [sumItW] using this
      have hval : loads.getD i 0 + it.w + sumItW ((asg.getD i []).erase it) =
          (loadsOfAssign loads asg).getD i 0 := by
        rw [getD_loadsOfAssign loads asg i hil hi, hsum]
        omega
      rw [hval]
      apply set_getD_self
      rw [length_loadsOfAssign, hlen]
      simpa using hil
    calc bestCompletion (it :: rest) loads
        ≤ bestCompletion rest (loads.set i (loads.getD i 0 + it.w)) :=
          bestCompletion_le_child hchild
      _ ≤ maxList (loadsOfAssign (loads.set i (loads.getD i 0 + it.w))
            (asg.set i ((asg.getD i []).erase it))) := ih _ _ hlen' hne' hperm'
      _ = maxList (loadsOfAssign loads asg) := by rw [hkey]

/-! ### Facts about valid search states -/

theorem maxList_le_loadsOfAssign (base : List Nat) (asg : List (List Item))
    (h : asg.length = base.length) :
    maxList base ≤ maxList (loadsOfAssign base asg) := by
  apply maxList_le
  intro x hx
  obtain ⟨i, hi, hget⟩ := of_mem_list 0 hx
  have hia : i < asg.length := h ▸ hi
  have hmem : (loadsOfAssign base asg).getD i 0 ∈ loadsOfAssign base asg := by
    apply mem_getD
    rw [length_loadsOfAssign]
    omega
  have := le_maxList_of_mem hmem
  rw [getD_loadsOfAssign base asg i hi hia, hget] at this
  omega

theorem vstate_loads_length {base : List Nat} {F : List Item} {tc : Nat}
    {rest : List Item} {idx : Nat} {loads : List Nat}
    {assign : List (List Item)} (hbase : base.length = tc)
    (hv : VState base F tc rest idx loads assign) : loads.length = tc := by
  obtain ⟨h1, h2, _⟩ := hv
  rw [h2, length_loadsOfAssign, hbase, h1, min_self]

theorem vstate_loads_ne_nil {base : List Nat} {F : List Item} {tc : Nat}
    {rest : List Item} {idx : Nat} {loads : List Nat}
    {assign : List (List Item)} (htc : 0 < tc) (hbase : base.length = tc)
    (hv : VState base F tc rest idx loads assign) : loads ≠ [] := by
  intro h0
  have := vstate_loads_length hbase hv
  rw [h0] at this
  simp at this
  omega

theorem vstate_child {base : List Nat} {F : List Item} {tc : Nat} {it : Item}
    {rest : List Item} {idx : Nat} {loads : List Nat}
    {assign : List (List Item)} {i : Nat} (hbase : base.length = tc)
    (hv : VState base F tc (it :: rest) idx loads assign) (hi : i < tc) :
    VState base F tc rest (idx + 1) (loads.set i (loads.getD i 0 + it.w))
      (assign.set i (assign.getD i [] ++ [it])) := by
  obtain ⟨hlen, hloads, done, hF, hdl, hperm⟩ := hv
  have hib : i < base.length := hbase ▸ hi
  have hia : i < assign.length := hlen ▸ hi
  refine ⟨by simp [hlen], ?_, done ++ [it], by rw [hF]; simp, by simp [hdl], ?_⟩
  · rw [loadsOfAssign_set_right base assign i _ hib]
    rw [hloads]
    congr 1
    rw [getD_loadsOfAssign base assign i hib hia, sumItW_append]
    simp [sumItW]
    omega
  · exact (flatten_set_append_perm assign i it hia).trans (hperm.append_right [it])

theorem setLoad_perm_cons_erase {loads : List Nat} {i w : Nat}
    (hi : i < loads.length) :
    (loads.set i (loads.getD i 0 + w)).Perm
      ((loads.getD i 0 + w) :: loads.erase (loads.getD i 0)) := by
  have h1 := set_perm_cons_eraseIdx loads i (loads.getD i 0 + w) hi
  have hvmem : loads.getD i 0 ∈ loads := mem_getD 0 loads i hi
  have h2 : (loads.getD i 0 :: loads.eraseIdx i).Perm
      (loads.getD i 0 :: loads.erase (loads.getD i 0)) :=
    (getD_cons_eraseIdx_perm loads i hi).trans (List.perm_cons_erase hvmem)
  exact h1.trans (h2.cons_inv.cons _)

theorem vstate_drop {base : List Nat} {F : List Item} {tc : Nat}
    {rest : List Item} {idx : Nat} {loads : List Nat}
    {assign : List (List Item)}
    (hv : VState base F tc rest idx loads assign) : F.drop idx = rest := by
  obtain ⟨_, _, done, hF, hdl, _⟩ := hv
  rw [hF, ← hdl]
  exact List.drop_left done rest

theorem vstate_sum {base : List Nat} {F : List Item} {tc : Nat}
    {rest : List Item} {idx : Nat} {loads : List Nat}
    {assign : List (List Item)} (hbase : base.length = tc)
    (hv : VState base F tc rest idx loads assign) :
    loads.sum + sumItW rest = base.sum + sumItW F := by
  obtain ⟨hlen, hloads, done, hF, hdl, hperm⟩ := hv
  rw [hloads, loadsOfAssign_sum base assign (by omega), sumItW_perm hperm, hF,
    sumItW_append]
  omega

/-! ### The team loop satisfies its postcondition -/

theorem tryTeams_spec {base : List Nat} {F : List Item} {tc : Nat}
    {it : Item} {rest : List Item} {idx : Nat}
    {loads : List Nat} {assign : List (List Item)}
    {child : List Nat → List (List Item) → BB → BB}
    (htc : 0 < tc) (hbase : base.length = tc)
    (hchild : ∀ loads' assign' s',
      VState base F tc rest (idx + 1) loads' assign' →
      GoodBB base F tc s' → SeenInv F s'.seen s'.bestMakespanW (idx + 1) →
      DfsPost base F tc rest (idx + 1) loads' s' (child loads' assign' s'))
    (hv : VState base F tc (it :: rest) idx loads assign) :
    ∀ (teamList tried : List Nat) (s : BB),
      (∀ i ∈ teamList, i < tc) →
      GoodBB base F tc s → SeenInv F s.seen s.bestMakespanW (idx + 1) →
      (∀ v ∈ tried, s.bestMakespanW ≤
        bestCompletion rest ((v + it.w) :: loads.erase v)) →
      TTPost base F tc it rest idx loads teamList tried s
        (tryTeams it.w it child loads assign teamList tried s) := by
  intro teamList
  induction teamList with
  | nil =>
    intro tried s hteams hg hsi htried
    simp only [tryTeams]
    exact ⟨le_refl _, hg, hsi, fun h => absurd rfl h, fun p hp => Or.inl hp,
      htried, by simp⟩
  | cons i is ih =>
    intro tried s hteams hg hsi htried
    have hitc : i < tc := hteams i (List.mem_cons_self _ _)
    have hloadslen : loads.length = tc := vstate_loads_length hbase hv
    have hil : i < loads.length := by omega
    simp only [tryTeams]
    by_cases hmem : loads.getD i 0 ∈ tried
    · rw [if_pos hmem]
      obtain ⟨c1, c2, c3, c4, c5, c6, c7⟩ :=
        ih tried s (fun j hj => hteams j (List.mem_cons_of_mem _ hj)) hg hsi htried
      refine ⟨c1, c2, c3, c4, c5, c6, ?_⟩
      intro j hj
      rcases List.mem_cons.mp hj with rfl | hj
      · rw [bestCompletion_perm rest (setLoad_perm_cons_erase hil)]
        exact c6 _ hmem
      · exact c7 j hj
    · rw [if_neg hmem]
      by_cases hskip : s.bestMakespanW ≤ loads.getD i 0 + it.w
      · rw [if_pos hskip]
        have htried' : ∀ v ∈ loads.getD i 0 :: tried, s.bestMakespanW ≤
            bestCompletion rest ((v + it.w) :: loads.erase v) := by
          intro v hvv
          rcases List.mem_cons.mp hvv with rfl | hvv
          · refine le_trans hskip (le_trans
              (le_maxList_of_mem (List.mem_cons_self _ _))
              (maxList_le_bestCompletion rest _ (by simp)))
          · exact htried v hvv
        obtain ⟨c1, c2, c3, c4, c5, c6, c7⟩ :=
          ih (loads.getD i 0 :: tried) s
            (fun j hj => hteams j (List.mem_cons_of_mem _ hj)) hg hsi htried'
        refine ⟨c1, c2, c3, c4, c5,
          fun v hvv => c6 v (List.mem_cons_of_mem _ hvv), ?_⟩
        intro j hj
        rcases List.mem_cons.mp hj with rfl | hj
        · rw [bestCompletion_perm rest (setLoad_perm_cons_erase hil)]
          exact c6 _ (List.mem_cons_self _ _)
        · exact c7 j hj
      · rw [if_neg hskip]
        obtain ⟨d1, d2, d3, d4, d5, d6⟩ :=
          hchild (loads.set i (loads.getD i 0 + it.w))
            (assign.set i (assign.getD i [] ++ [it])) s
            (vstate_child hbase hv hitc) hg hsi
        have htried' : ∀ v ∈ loads.getD i 0 :: tried,
            (child (loads.set i (loads.getD i 0 + it.w))
              (assign.set i (assign.getD i [] ++ [it])) s).bestMakespanW ≤
            bestCompletion rest ((v + it.w) :: loads.erase v) := by
          intro v hvv
          rcases List.mem_cons.mp hvv with rfl | hvv
          · rw [← bestCompletion_perm rest (setLoad_perm_cons_erase hil)]
            exact d4
          · exact le_trans d1 (htried v hvv)
        obtain ⟨c1, c2, c3, c4, c5, c6, c7⟩ :=
          ih (loads.getD i 0 :: tried) _
            (fun j hj => hteams j (List.mem_cons_of_mem _ hj)) d2 d3 htried'
        refine ⟨le_trans c1 d1, c2, c3, ?_, ?_,
          fun v hvv => c6 v (List.mem_cons_of_mem _ hvv), ?_⟩
        · intro hne
          by_cases heq : (tryTeams it.w it child loads assign is
              (loads.getD i 0 :: tried)
              (child (loads.set i (loads.getD i 0 + it.w))
                (assign.set i (assign.getD i [] ++ [it])) s)).bestAssign =
              (child (loads.set i (loads.getD i 0 + it.w))
                (assign.set i (assign.getD i [] ++ [it])) s).bestAssign
          · have hne2 : (child (loads.set i (loads.getD i 0 + it.w))
                (assign.set i (assign.getD i [] ++ [it])) s).bestAssign ≠
                s.bestAssign := fun h => hne (heq.trans h)
            exact lt_of_le_of_lt c1 (d5 hne2)
          · exact lt_of_lt_of_le (c4 heq) d1
        · intro p hp
          rcases c5 p hp with hp1 | hge
          · rcases d6 p hp1 with hp2 | hkey | hge2
            · exact Or.inl hp2
            · right
              rw [hkey]
              simp [keyOf]
            · right
              omega
          · exact Or.inr hge
        · intro j hj
          rcases List.mem_cons.mp hj with rfl | hj
          · rw [bestCompletion_perm rest (setLoad_perm_cons_erase hil)]
            exact c6 _ (List.mem_cons_self _ _)
          · exact c7 j hj

/-! ### The search satisfies its postcondition -/

theorem dfs_spec {base : List Nat} {F : List Item} {tc : Nat} {av bm : Nat}
    (htc : 0 < tc) (hbase : base.length = tc)
    (hav : ∀ m, base.sum + sumItW F ≤ tc * m → av ≤ m)
    (hbm : bm = maxList base) :
    ∀ (rest : List Item) (idx : Nat) (loads : List Nat)
      (assign : List (List Item)) (s : BB),
      VState base F tc rest idx loads assign →
      GoodBB base F tc s → SeenInv F s.seen s.bestMakespanW idx →
      DfsPost base F tc rest idx loads s (dfs av bm rest idx loads assign s) := by
  intro rest
  induction rest with
  | nil =>
    intro idx loads assign s hv hg hsi
    simp only [dfs]
    by_cases hlt : maxList loads < s.bestMakespanW
    · rw [if_pos hlt]
      obtain ⟨hlen, hloads, done, hF, hdl, hperm⟩ := hv
      have hFdone : F = done := by simpa using hF
      refine ⟨le_of_lt hlt, ⟨hlen, by rw [hFdone]; exact hperm, by rw [hloads]⟩,
        ?_, ?_, fun _ => hlt, fun p hp => Or.inl hp⟩
      · intro p hp hge
        exact le_trans (le_of_lt hlt) (hsi p hp hge)
      · simp only [bestCompletion]
        exact le_refl _
    · rw [if_neg hlt]
      refine ⟨le_refl _, hg, hsi, ?_, fun h => absurd rfl h, fun p hp => Or.inl hp⟩
      simp only [bestCompletion]
      exact Nat.le_of_not_lt hlt
  | cons it rest ih =>
    intro idx loads assign s hv hg hsi
    have hloadslen := vstate_loads_length hbase hv
    have hlne : loads ≠ [] := vstate_loads_ne_nil htc hbase hv
    have hbcmax : maxList loads ≤ bestCompletion (it :: rest) loads :=
      maxList_le_bestCompletion _ _ hlne
    have hbcbm : bm ≤ bestCompletion (it :: rest) loads := by
      rw [hbm]
      refine le_trans ?_ hbcmax
      obtain ⟨hlen, hloads, _⟩ := hv
      rw [hloads]
      exact maxList_le_loadsOfAssign base assign (by omega)
    have hbcav : av ≤ bestCompletion (it :: rest) loads := by
      apply hav
      have h1 := sum_add_le_mul_bestCompletion (it :: rest) loads hlne
      have h2 := vstate_sum hbase hv
      rw [hloadslen] at h1
      omega
    simp only [dfs]
    by_cases hP : s.bestMakespanW ≤ max (max av bm) (maxList loads)
    · rw [if_pos hP]
      have hsb : s.bestMakespanW ≤ bestCompletion (it :: rest) loads :=
        le_trans hP (by simp only [max_le_iff]; exact ⟨⟨hbcav, hbcbm⟩, hbcmax⟩)
      exact ⟨le_refl _, hg, hsi, hsb, fun h => absurd rfl h, fun p hp => Or.inl hp⟩
    · rw [if_neg hP]
      by_cases hK : keyOf idx loads ∈ s.seen
      · rw [if_pos hK]
        have hsk : s.bestMakespanW ≤ bestCompletion (it :: rest) loads := by
          have hmemo := hsi (keyOf idx loads) hK (le_refl _)
          simp only [keyOf] at hmemo
          rw [vstate_drop hv] at hmemo
          exact le_trans hmemo
            (le_of_eq (bestCompletion_perm _ (sortAsc_perm loads)))
        exact ⟨le_refl _, hg, hsi, hsk, fun h => absurd rfl h, fun p hp => Or.inl hp⟩
      · rw [if_neg hK]
        have hg1 : GoodBB base F tc
            ⟨s.bestMakespanW, s.bestAssign, keyOf idx loads :: s.seen⟩ := hg
        have hsi1 : SeenInv F (keyOf idx loads :: s.seen) s.bestMakespanW
            (idx + 1) := by
          intro p hp hge
          rcases List.mem_cons.mp hp with rfl | hp
          · exact absurd hge (by simp [keyOf])
          · exact hsi p hp (by omega)
        have hteams : ∀ i ∈ orderOf loads, i < tc := by
          intro i hi
          have hr := (orderOf_perm_range loads).mem_iff.mp hi
          rw [List.mem_range] at hr
          omega
        obtain ⟨c1, c2, c3, c4, c5, c6, c7⟩ :=
          tryTeams_spec htc hbase
            (fun l a b hv' hg' hsi' => ih (idx + 1) l a b hv' hg' hsi') hv
            (orderOf loads) [] _ hteams hg1 hsi1 (by simp)
        have hD4 : (tryTeams it.w it (fun l a b => dfs av bm rest (idx + 1) l a b)
            loads assign (orderOf loads) []
            ⟨s.bestMakespanW, s.bestAssign, keyOf idx loads :: s.seen⟩).bestMakespanW ≤
            bestCompletion (it :: rest) loads := by
          simp only [bestCompletion]
          apply le_minD (bcMap_ne_nil _ _ hlne)
          intro x hx
          obtain ⟨c, hc, rfl⟩ := List.mem_map.mp hx
          obtain ⟨i, hi, rfl⟩ := of_mem_childStates hc
          exact c7 i (mem_orderOf (by omega))
        refine ⟨c1, c2, ?_, hD4, c4, ?_⟩
        · intro p hp hge
          rcases c5 p hp with hp1 | hge1
          · rcases List.mem_cons.mp hp1 with rfl | hp2
            · show _ ≤ bestCompletion (F.drop idx) (sortAsc loads)
              rw [vstate_drop hv, bestCompletion_perm _ (sortAsc_perm loads)]
              exact hD4
            · exact le_trans c1 (hsi p hp2 hge)
          · exact c3 p hp hge1
        · intro p hp
          rcases c5 p hp with hp1 | hge1
          · rcases List.mem_cons.mp hp1 with rfl | hp2
            · exact Or.inr (Or.inl rfl)
            · exact Or.inl hp2
          · exact Or.inr (Or.inr hge1)

/-! ### More small list utilities -/

theorem getD_replicate {α : Type} : ∀ (n i : Nat) (a : α),
    (List.replicate n a).getD i a = a
  | 0, _, _ => rfl
  | _ + 1, 0, _ => rfl
  | n + 1, i + 1, a => getD_replicate n i a

theorem range_map_getD {α : Type} (d : α) :
    ∀ l : List α, (List.range l.length).map (fun i => l.getD i d) = l
  | [] => rfl
  | a :: l => by
    rw [List.length_cons, List.range_succ_eq_map, List.map_cons, List.map_map]
    congr 1
    exact range_map_getD d l

theorem getD_map_range {α : Type} (d : α) :
    ∀ (n : Nat) (f : Nat → α) (i : Nat), i < n →
      ((List.range n).map f).getD i d = f i
  | 0, _, _, h => absurd h (by omega)
  | n + 1, f, 0, _ => by
    rw [List.range_succ_eq_map]
    rfl
  | n + 1, f, i + 1, h => by
    rw [List.range_succ_eq_map, List.map_cons, List.map_map, List.getD_cons_succ]
    exact getD_map_range d n (f ∘ Nat.succ) i (by omega)

theorem flatten_replicate_nil {α : Type} :
    ∀ n : Nat, (List.replicate n ([] : List α)).flatten = []
  | 0 => rfl
  | n + 1 => by simp [List.replicate_succ, flatten_replicate_nil n]

theorem maxList_replicate_zero : ∀ n : Nat, maxList (List.replicate n 0) = 0
  | 0 => rfl
  | n + 1 => by
    simp only [List.replicate_succ, maxList, List.foldr_cons]
    rw [show List.foldr max 0 (List.replicate n 0) =
      maxList (List.replicate n 0) from rfl, maxList_replicate_zero n]
    simp

theorem sum_map_add {α : Type} (f g : α → Nat) :
    ∀ l : List α, (l.map (fun x => f x + g x)).sum =
      (l.map f).sum + (l.map g).sum
  | [] => rfl
  | a :: l => by
    simp only [List.map_cons, List.sum_cons, sum_map_add f g l]
    omega

theorem flatten_map_perm {α β : Type} (f g : α → List β) :
    ∀ l : List α, (∀ x ∈ l, (f x).Perm (g x)) →
      ((l.map f).flatten).Perm ((l.map g).flatten)
  | [], _ => List.Perm.refl _
  | a :: l, h => by
    simp only [List.map_cons, List.flatten_cons]
    exact (h a (List.mem_cons_self _ _)).append
      (flatten_map_perm f g l (fun x hx => h x (List.mem_cons_of_mem _ hx)))

theorem append_append_perm {α : Type} (a b c d : List α) :
    ((a ++ b) ++ (c ++ d)).Perm ((a ++ c) ++ (b ++ d)) := by
  rw [List.append_assoc, List.append_assoc]
  refine List.Perm.append_left a ?_
  rw [← List.append_assoc, ← List.append_assoc]
  exact (List.perm_append_comm.append_right d)

theorem flatten_map_append {α β : Type} (f g : α → List β) :
    ∀ l : List α, ((l.map (fun x => f x ++ g x)).flatten).Perm
      ((l.map f).flatten ++ (l.map g).flatten)
  | [] => List.Perm.refl _
  | a :: l => by
    simp only [List.map_cons, List.flatten_cons]
    exact ((flatten_map_append f g l).append_left (f a ++ g a)).trans
      (append_append_perm (f a) (g a) _ _)

theorem sumItMin_flatten : ∀ L : List (List Item),
    sumItMin L.flatten = (L.map sumItMin).sum
  | [] => rfl
  | a :: L => by
    simp only [List.flatten_cons, sumItMin_append, List.map_cons, List.sum_cons,
      sumItMin_flatten L]

/-! ### Partition loop characterizations -/

theorem teamIdx_lt_of_inFixedRange {tc : Nat} {j : Job}
    (h : inFixedRange tc j = true) : teamIdx j < tc := by
  simp only [inFixedRange, Bool.and_eq_true, decide_eq_true_eq] at h
  obtain ⟨h1, h2⟩ := h
  simp only [teamIdx]
  omega

theorem partition_foldl_lengths (tc : Nat) : ∀ (jobs : List Job)
    (acc : List Nat × List (List JobM) × List Job),
    (jobs.foldl (partitionStep tc) acc).1.length = acc.1.length ∧
    (jobs.foldl (partitionStep tc) acc).2.1.length = acc.2.1.length
  | [], _ => ⟨rfl, rfl⟩
  | j :: jobs, acc => by
    rw [List.foldl_cons]
    obtain ⟨h1, h2⟩ := partition_foldl_lengths tc jobs (partitionStep tc acc j)
    constructor
    · rw [h1]
      simp only [partitionStep]
      split <;> simp
    · rw [h2]
      simp only [partitionStep]
      split <;> simp

theorem partition_foldl_free (tc : Nat) : ∀ (jobs : List Job)
    (acc : List Nat × List (List JobM) × List Job),
    (jobs.foldl (partitionStep tc) acc).2.2 =
      acc.2.2 ++ jobs.filter (fun j => !(inFixedRange tc j))
  | [], _ => by simp
  | j :: jobs, acc => by
    rw [List.foldl_cons, partition_foldl_free tc jobs (partitionStep tc acc j)]
    by_cases hin : inFixedRange tc j
    · rw [List.filter_cons_of_neg (by simp [hin])]
      simp only [partitionStep, if_pos hin]
    · rw [List.filter_cons_of_pos (by simp [hin])]
      simp only [partitionStep, if_neg hin]
      simp

theorem partition_foldl_loads (tc : Nat) : ∀ (jobs : List Job)
    (acc : List Nat × List (List JobM) × List Job) (i : Nat),
    acc.1.length = tc → i < tc →
    (jobs.foldl (partitionStep tc) acc).1.getD i 0 =
      acc.1.getD i 0 +
        ((jobs.filter (fun j => inFixedRange tc j && (teamIdx j == i))).map
          Job.minutes).sum
  | [], _, _, _, _ => by simp
  | j :: jobs, acc, i, hlen, hi => by
    rw [List.foldl_cons]
    by_cases hin : inFixedRange tc j
    · have hti : teamIdx j < tc := teamIdx_lt_of_inFixedRange hin
      have hacc' : (partitionStep tc acc j).1.length = tc := by
        simp only [partitionStep, if_pos hin]
        simpa using hlen
      rw [partition_foldl_loads tc jobs (partitionStep tc acc j) i hacc' hi]
      by_cases hteam : teamIdx j = i
      · rw [List.filter_cons_of_pos (by simp [hin, hteam])]
        simp only [partitionStep, if_pos hin]
        rw [hteam, getD_set_self 0 acc.1 i _ (by omega)]
        simp only [List.map_cons, List.sum_cons]
        omega
      · rw [List.filter_cons_of_neg (by simp [hin, hteam])]
        simp only [partitionStep, if_pos hin]
        rw [getD_set_ne 0 acc.1 (teamIdx j) i _ hteam]
    · rw [List.filter_cons_of_neg (by simp [hin])]
      have hacc' : (partitionStep tc acc j).1.length = tc := by
        simp only [partitionStep, if_neg hin]
        exact hlen
      rw [partition_foldl_loads tc jobs (partitionStep tc acc j) i hacc' hi]
      simp only [partitionStep, if_neg hin]

theorem partition_foldl_assign (tc : Nat) : ∀ (jobs : List Job)
    (acc : List Nat × List (List JobM) × List Job) (i : Nat),
    acc.2.1.length = tc → i < tc →
    (jobs.foldl (partitionStep tc) acc).2.1.getD i [] =
      acc.2.1.getD i [] ++
        (jobs.filter (fun j => inFixedRange tc j && (teamIdx j == i))).map toJobM
  | [], _, _, _, _ => by simp
  | j :: jobs, acc, i, hlen, hi => by
    rw [List.foldl_cons]
    by_cases hin : inFixedRange tc j
    · have hti : teamIdx j < tc := teamIdx_lt_of_inFixedRange hin
      have hacc' : (partitionStep tc acc j).2.1.length = tc := by
        simp only [partitionStep, if_pos hin]
        simpa using hlen
      rw [partition_foldl_assign tc jobs (partitionStep tc acc j) i hacc' hi]
      by_cases hteam : teamIdx j = i
      · rw [List.filter_cons_of_pos (by simp [hin, hteam])]
        simp only [partitionStep, if_pos hin]
        rw [hteam, getD_set_self [] acc.2.1 i _ (by omega)]
        simp
      · rw [List.filter_cons_of_neg (by simp [hin, hteam])]
        simp only [partitionStep, if_pos hin]
        rw [getD_set_ne [] acc.2.1 (teamIdx j) i _ hteam]
    · rw [List.filter_cons_of_neg (by simp [hin])]
      have hacc' : (partitionStep tc acc j).2.1.length = tc := by
        simp only [partitionStep, if_neg hin]
        exact hlen
      rw [partition_foldl_assign tc jobs (partitionStep tc acc j) i hacc' hi]
      simp only [partitionStep, if_neg hin]

theorem partition_foldl_flatten (tc : Nat) : ∀ (jobs : List Job)
    (acc : List Nat × List (List JobM) × List Job),
    acc.2.1.length = tc →
    ((jobs.foldl (partitionStep tc) acc).2.1.flatten).Perm
      (acc.2.1.flatten ++ (jobs.filter (fun j => inFixedRange tc j)).map toJobM)
  | [], _, _ => by simp
  | j :: jobs, acc, hlen => by
    rw [List.foldl_cons]
    by_cases hin : inFixedRange tc j
    · have hti : teamIdx j < tc := teamIdx_lt_of_inFixedRange hin
      have hacc' : (partitionStep tc acc j).2.1.length = tc := by
        simp only [partitionStep, if_pos hin]
        simpa using hlen
      have ih := partition_foldl_flatten tc jobs (partitionStep tc acc j) hacc'
      have hstep : ((partitionStep tc acc j).2.1.flatten).Perm
          (acc.2.1.flatten ++ [toJobM j]) := by
        simp only [partitionStep, if_pos hin]
        exact flatten_set_append_perm acc.2.1 (teamIdx j) (toJobM j) (by omega)
      rw [List.filter_cons_of_pos (by simp [hin])]
      refine ih.trans ?_
      refine (hstep.append_right _).trans ?_
      rw [List.append_assoc]
      simp
    · have hacc' : (partitionStep tc acc j).2.1.length = tc := by
        simp only [partitionStep, if_neg hin]
        exact hlen
      have ih := partition_foldl_flatten tc jobs (partitionStep tc acc j) hacc'
      rw [List.filter_cons_of_neg (by simp [hin])]
      refine ih.trans ?_
      simp only [partitionStep, if_neg hin]
      exact List.Perm.refl _

theorem partition_foldl_loads_sum (tc : Nat) : ∀ (jobs : List Job)
    (acc : List Nat × List (List JobM) × List Job),
    acc.1.length = tc →
    (jobs.foldl (partitionStep tc) acc).1.sum =
      acc.1.sum + ((jobs.filter (fun j => inFixedRange tc j)).map Job.minutes).sum
  | [], _, _ => by simp
  | j :: jobs, acc, hlen => by
    rw [List.foldl_cons]
    by_cases hin : inFixedRange tc j
    · have hti : teamIdx j < tc := teamIdx_lt_of_inFixedRange hin
      have hacc' : (partitionStep tc acc j).1.length = tc := by
        simp only [partitionStep, if_pos hin]
        simpa using hlen
      rw [partition_foldl_loads_sum tc jobs (partitionStep tc acc j) hacc',
        List.filter_cons_of_pos (by simp [hin])]
      have hstep : (partitionStep tc acc j).1.sum = acc.1.sum + j.minutes := by
        simp only [partitionStep, if_pos hin]
        exact sum_set_add acc.1 (teamIdx j) j.minutes (by omega)
      rw [hstep]
      simp only [List.map_cons, List.sum_cons]
      omega
    · have hacc' : (partitionStep tc acc j).1.length = tc := by
        simp only [partitionStep, if_neg hin]
        exact hlen
      rw [partition_foldl_loads_sum tc jobs (partitionStep tc acc j) hacc',
        List.filter_cons_of_neg (by simp [hin])]
      simp only [partitionStep, if_neg hin]

theorem fixedLoads_length (jobs : List Job) (tc : Nat) :
    (fixedLoads jobs tc).length = tc := by
  have := (partition_foldl_lengths tc jobs
    (List.replicate tc 0, List.replicate tc [], [])).1
  simpa [fixedLoads, partitionJobs] using this

theorem fixedAssign_length (jobs : List Job) (tc : Nat) :
    (fixedAssign jobs tc).length = tc := by
  have := (partition_foldl_lengths tc jobs
    (List.replicate tc 0, List.replicate tc [], [])).2
  simpa [fixedAssign, partitionJobs] using this

theorem freeJobs_eq_filter (jobs : List Job) (tc : Nat) :
    freeJobs jobs tc = jobs.filter (fun j => !(inFixedRange tc j)) := by
  have := partition_foldl_free tc jobs (List.replicate tc 0, List.replicate tc [], [])
  simpa [freeJobs, partitionJobs] using this

theorem fixedLoads_getD {jobs : List Job} {tc : Nat} {i : Nat} (hi : i < tc) :
    (fixedLoads jobs tc).getD i 0 =
      ((jobs.filter (fun j => inFixedRange tc j && (teamIdx j == i))).map
        Job.minutes).sum := by
  have := partition_foldl_loads tc jobs
    (List.replicate tc 0, List.replicate tc [], []) i (by simp) hi
  simpa [fixedLoads, partitionJobs, getD_replicate] using this

theorem fixedAssign_getD {jobs : List Job} {tc : Nat} {i : Nat} (hi : i < tc) :
    (fixedAssign jobs tc).getD i [] =
      (jobs.filter (fun j => inFixedRange tc j && (teamIdx j == i))).map toJobM := by
  have := partition_foldl_assign tc jobs
    (List.replicate tc 0, List.replicate tc [], []) i (by simp) hi
  simpa [fixedAssign, partitionJobs, getD_replicate] using this

theorem fixedAssign_flatten (jobs : List Job) (tc : Nat) :
    ((fixedAssign jobs tc).flatten).Perm
      ((jobs.filter (fun j => inFixedRange tc j)).map toJobM) := by
  have := partition_foldl_flatten tc jobs
    (List.replicate tc 0, List.replicate tc [], []) (by simp)
  simpa [fixedAssign, partitionJobs, flatten_replicate_nil] using this

theorem fixedLoads_sum (jobs : List Job) (tc : Nat) :
    (fixedLoads jobs tc).sum =
      ((jobs.filter (fun j => inFixedRange tc j)).map Job.minutes).sum := by
  have := partition_foldl_loads_sum tc jobs
    (List.replicate tc 0, List.replicate tc [], []) (by simp)
  simpa [fixedLoads, partitionJobs, List.sum_replicate] using this

/-! ### The greedy baseline -/

theorem bestIdx_lt : ∀ l : List Nat, l ≠ [] → bestIdx l < l.length
  | [], h => absurd rfl h
  | [_], _ => by simp [bestIdx]
  | x :: y :: ys, _ => by
    simp only [bestIdx]
    split
    · simp
    · have := bestIdx_lt (y :: ys) (by simp)
      simpa using Nat.succ_lt_succ this

theorem bestIdx_spec : ∀ l : List Nat, l ≠ [] →
    (∀ j, j < l.length → l.getD (bestIdx l) 0 ≤ l.getD j 0) ∧
    (∀ j, j < bestIdx l → l.getD (bestIdx l) 0 < l.getD j 0)
  | [], h => absurd rfl h
  | [x], _ => by
    constructor
    · intro j hj
      have hj0 : j = 0 := by
        simp at hj
        omega
      subst hj0
      exact le_refl _
    · intro j hj
      simp [bestIdx] at hj
  | x :: y :: ys, _ => by
    obtain ⟨ih1, ih2⟩ := bestIdx_spec (y :: ys) (by simp)
    have hblt := bestIdx_lt (y :: ys) (by simp)
    simp only [bestIdx]
    split
    · next hle =>
      constructor
      · intro j hj
        cases j with
        | zero => exact le_refl _
        | succ j =>
          rw [List.getD_cons_zero, List.getD_cons_succ]
          exact le_trans hle (ih1 j (by simpa using hj))
      · intro j hj
        omega
    · next hgt =>
      have hgt' : (y :: ys).getD (bestIdx (y :: ys)) 0 < x := Nat.lt_of_not_le hgt
      constructor
      · intro j hj
        cases j with
        | zero => exact le_of_lt hgt'
        | succ j =>
          rw [List.getD_cons_succ, List.getD_cons_succ]
          exact ih1 j (by simpa using hj)
      · intro j hj
        cases j with
        | zero => exact hgt'
        | succ j =>
          rw [List.getD_cons_succ, List.getD_cons_succ]
          exact ih2 j (by omega)

theorem greedy_foldl_invariant (base : List Nat) (hbne : base ≠ []) :
    ∀ (items : List Item) (loads : List Nat) (assign : List (List Item)),
      loads = loadsOfAssign base assign → assign.length = base.length →
      (items.foldl greedyStep (loads, assign)).1 =
        loadsOfAssign base (items.foldl greedyStep (loads, assign)).2 ∧
      (items.foldl greedyStep (loads, assign)).2.length = base.length ∧
      ((items.foldl greedyStep (loads, assign)).2.flatten).Perm
        (assign.flatten ++ items)
  | [], loads, assign, h1, h2 => ⟨h1, h2, by simp⟩
  | it :: items, loads, assign, h1, h2 => by
    rw [List.foldl_cons]
    have hll : loads.length = base.length := by
      rw [h1, length_loadsOfAssign]
      omega
    have hlne : loads ≠ [] := by
      intro h0
      rw [h0] at hll
      simp at hll
      exact hbne (List.eq_nil_of_length_eq_zero hll.symm)
    have hb := bestIdx_lt loads hlne
    obtain ⟨b, hbdef⟩ : ∃ b, bestIdx loads = b := ⟨_, rfl⟩
    rw [hbdef] at hb
    have hba : b < assign.length := by omega
    have hbb : b < base.length := by omega
    have hgd : loads.getD b 0 = base.getD b 0 + sumItW (assign.getD b []) := by
      rw [h1]
      exact getD_loadsOfAssign base assign b hbb hba
    have hstep1 : loads.set b (loads.getD b 0 + it.w) =
        loadsOfAssign base (assign.set b (assign.getD b [] ++ [it])) := by
      rw [loadsOfAssign_set_right base assign b _ hbb, ← h1]
      congr 1
      rw [sumItW_append]
      have hit : sumItW [it] = it.w := by simp [sumItW]
      rw [hit]
      omega
    have hpair : greedyStep (loads, assign) it =
        (loads.set b (loads.getD b 0 + it.w),
          assign.set b (assign.getD b [] ++ [it])) := by
      subst hbdef
      rfl
    rw [hpair]
    have ih := greedy_foldl_invariant base hbne items
      (loads.set b (loads.getD b 0 + it.w))
      (assign.set b (assign.getD b [] ++ [it]))
      hstep1 (by simpa using h2)
    refine ⟨ih.1, ih.2.1, ?_⟩
    refine ih.2.2.trans ?_
    have hfl := flatten_set_append_perm assign b it hba
    refine (hfl.append_right items).trans ?_
    rw [List.append_assoc]
    exact List.Perm.refl _

theorem baseW_length (jobs : List Job) (tc quant : Nat) :
    (baseW jobs tc quant).length = tc := by
  simp [baseW, fixedLoads_length]

theorem baseW_ne_nil {jobs : List Job} {tc quant : Nat} (htc : 0 < tc) :
    baseW jobs tc quant ≠ [] := by
  intro h0
  have := baseW_length jobs tc quant
  rw [h0] at this
  simp at this
  omega

theorem greedy_inv (jobs : List Job) (tc quant : Nat) (htc : 0 < tc) :
    loads0 jobs tc quant =
      loadsOfAssign (baseW jobs tc quant) (assign0 jobs tc quant) ∧
    (assign0 jobs tc quant).length = tc ∧
    ((assign0 jobs tc quant).flatten).Perm (freeItems jobs tc quant) := by
  have h := greedy_foldl_invariant (baseW jobs tc quant) (baseW_ne_nil htc)
    (freeItems jobs tc quant) (baseW jobs tc quant)
    (List.replicate (baseW jobs tc quant).length [])
    (loadsOfAssign_replicate_nil (baseW jobs tc quant)).symm (by simp)
  refine ⟨h.1, by rw [show (assign0 jobs tc quant).length =
    (((freeItems jobs tc quant).foldl greedyStep (baseW jobs tc quant,
      List.replicate (baseW jobs tc quant).length [])).2).length from rfl, h.2.1,
    baseW_length], ?_⟩
  have h3 := h.2.2
  rw [flatten_replicate_nil] at h3
  simpa using h3

theorem greedyState_good (jobs : List Job) (tc quant : Nat) (htc : 0 < tc) :
    GoodBB (baseW jobs tc quant) (freeItems jobs tc quant) tc
      (greedyState jobs tc quant) := by
  obtain ⟨h1, h2, h3⟩ := greedy_inv jobs tc quant htc
  refine ⟨h2, h3, ?_⟩
  show maxList (loads0 jobs tc quant) =
    maxList (loadsOfAssign (baseW jobs tc quant) (assign0 jobs tc quant))
  rw [h1]

theorem vstate_init (jobs : List Job) (tc quant : Nat) (htc : 0 < tc) :
    VState (baseW jobs tc quant) (freeItems jobs tc quant) tc
      (freeItems jobs tc quant) 0 (baseW jobs tc quant)
      (List.replicate tc []) := by
  refine ⟨by simp, ?_, [], by simp, rfl, by rw [flatten_replicate_nil]⟩
  have hr : List.replicate tc ([] : List Item) =
      List.replicate (baseW jobs tc quant).length [] := by
    rw [baseW_length]
  rw [hr]
  exact (loadsOfAssign_replicate_nil _).symm

theorem avgLB_le (jobs : List Job) (tc quant : Nat) (htc : 0 < tc) :
    ∀ m, sumBase jobs tc quant + sumFree jobs tc quant ≤ tc * m →
      avgLB jobs tc quant ≤ m := by
  intro m h
  simp only [avgLB]
  obtain ⟨X, hX⟩ : ∃ X, tc * m = X := ⟨_, rfl⟩
  have key : sumBase jobs tc quant + sumFree jobs tc quant + tc - 1 <
      (m + 1) * tc := by
    have hr : (m + 1) * tc = tc * m + tc := by ring
    rw [hr, hX]
    rw [hX] at h
    omega
  exact Nat.lt_succ_iff.mp ((Nat.div_lt_iff_lt_mul htc).mpr key)

/-- The master fact: the search state after `dfs(0)` satisfies the full
search postcondition relative to the greedy baseline. -/
theorem solveState_post (jobs : List Job) (tc quant : Nat) (htc : 0 < tc) :
    DfsPost (baseW jobs tc quant) (freeItems jobs tc quant) tc
      (freeItems jobs tc quant) 0 (baseW jobs tc quant)
      (greedyState jobs tc quant) (solveState jobs tc quant) := by
  have h := dfs_spec htc (baseW_length jobs tc quant)
    (fun m hm => avgLB_le jobs tc quant htc m hm) rfl
    (freeItems jobs tc quant) 0 (baseW jobs tc quant)
    (List.replicate tc []) (greedyState jobs tc quant)
    (vstate_init jobs tc quant htc) (greedyState_good jobs tc quant htc)
    (fun p hp => absurd hp (by simp [greedyState]))
  exact h

/-! ### Remaining solve-level helpers -/

theorem map_range_const {α : Type} (c : α) :
    ∀ n : Nat, (List.range n).map (fun _ => c) = List.replicate n c
  | 0 => rfl
  | n + 1 => by
    rw [List.range_succ_eq_map, List.map_cons, List.map_map, List.replicate_succ]
    congr 1
    exact map_range_const c n

theorem quantQ_pos (quant : Nat) : 0 < quantQ quant := by
  simp only [quantQ]
  omega

theorem jsRound_zero (q : Nat) (hq : 0 < q) : jsRound 0 q = 0 := by
  rw [jsRound]
  apply Nat.div_eq_of_lt
  omega

theorem jsRound_one (m : Nat) : jsRound m 1 = m := by
  rw [jsRound]
  omega

theorem baseW_nil (tc quant : Nat) : baseW [] tc quant = List.replicate tc 0 := by
  have hjr : jsRound 0 (quantQ quant) = 0 := jsRound_zero _ (quantQ_pos quant)
  rw [baseW, show fixedLoads [] tc = List.replicate tc 0 from rfl]
  induction tc with
  | zero => rfl
  | succ n ih =>
    simp only [List.replicate_succ, List.map_cons, List.zipWith_cons_cons]
    rw [ih]
    simp [hjr]

theorem baseW_getD_aux (q : Nat) :
    ∀ (l : List Nat) (i : Nat), i < l.length →
      ((l.map (fun m => jsRound m q)).zipWith
        (fun r m => if 0 < m ∧ r = 0 then 1 else r) l).getD i 0 =
      (if 0 < l.getD i 0 ∧ jsRound (l.getD i 0) q = 0 then 1
        else jsRound (l.getD i 0) q)
  | [], _, h => absurd h (by simp)
  | m :: l, 0, _ => rfl
  | m :: l, i + 1, h =>
    baseW_getD_aux q l i (Nat.lt_of_succ_lt_succ (by simpa using h))

theorem baseW_getD {jobs : List Job} {tc quant : Nat} {i : Nat} (hi : i < tc) :
    (baseW jobs tc quant).getD i 0 =
      (if 0 < (fixedLoads jobs tc).getD i 0 ∧
          jsRound ((fixedLoads jobs tc).getD i 0) (quantQ quant) = 0 then 1
        else jsRound ((fixedLoads jobs tc).getD i 0) (quantQ quant)) := by
  rw [baseW]
  exact baseW_getD_aux (quantQ quant) (fixedLoads jobs tc) i
    (by rw [fixedLoads_length]; omega)

theorem mem_freeItems {jobs : List Job} {tc quant : Nat} {it : Item}
    (h : it ∈ freeItems jobs tc quant) :
    ∃ j ∈ freeJobs jobs tc, it = mkItem (quantQ quant) j := by
  have hm : it ∈ (freeJobs jobs tc).map (mkItem (quantQ quant)) :=
    (sortDescW_perm _).mem_iff.mp h
  obtain ⟨j, hj, hje⟩ := List.mem_map.mp hm
  exact ⟨j, hj, hje.symm⟩

/-! ### Claim theorems -/

/-- Claim C4: quantization.  Every free item's weight is
`max(1, round(minutes / q))` with `q = max(1, quant)`; team `i`'s fixed
weight is `round(fixedMinutes / q)` forced to 1 exactly when the team has
nonzero fixed minutes and rounding produced 0; with `quantum = 1` and
positive durations every free item's weight is its exact duration. -/
theorem claim_C4_quantization (jobs : List Job) (tc quant : Nat)
    (htc : 1 ≤ tc) (hq : 1 ≤ quant) :
    (∀ it ∈ freeItems jobs tc quant,
      it.w = max 1 (jsRound it.minutes (quantQ quant))) ∧
    (∀ i, i < tc → (baseW jobs tc quant).getD i 0 =
      (if 0 < (fixedLoads jobs tc).getD i 0 ∧
          jsRound ((fixedLoads jobs tc).getD i 0) (quantQ quant) = 0 then 1
        else jsRound ((fixedLoads jobs tc).getD i 0) (quantQ quant))) ∧
    quantQ quant = quant ∧
    ((∀ j ∈ jobs, 1 ≤ j.minutes) →
      ∀ it ∈ freeItems jobs tc 1, it.w = it.minutes) := by
  refine ⟨?_, fun i hi => baseW_getD hi, by simp [quantQ]; omega, ?_⟩
  · intro it hit
    obtain ⟨j, _, rfl⟩ := mem_freeItems hit
    rfl
  · intro hpos it hit
    obtain ⟨j, hj, rfl⟩ := mem_freeItems hit
    have hjm : 1 ≤ j.minutes := by
      apply hpos
      rw [freeJobs_eq_filter] at hj
      exact List.mem_of_mem_filter hj
    show max 1 (jsRound j.minutes (quantQ 1)) = j.minutes
    rw [show quantQ 1 = 1 from rfl, jsRound_one]
    omega

/-- Claim C5: the greedy LPT baseline.  The free items are the stable
descending-weight sort of the quantized free jobs (permutation, sortedness,
and tie stability via filtering on each weight); each greedy step picks the
first team of strictly smallest load; the greedy makespan seeds the search's
initial best makespan. -/
theorem claim_C5_greedy_baseline (jobs : List Job) (tc quant : Nat)
    (htc : 1 ≤ tc) (hq : 1 ≤ quant) :
    ((freeItems jobs tc quant).Perm
      ((freeJobs jobs tc).map (mkItem (quantQ quant)))) ∧
    ((freeItems jobs tc quant).Pairwise (fun a b => b.w ≤ a.w)) ∧
    (∀ v, (freeItems jobs tc quant).filter (fun it => it.w == v) =
      ((freeJobs jobs tc).map (mkItem (quantQ quant))).filter
        (fun it => it.w == v)) ∧
    (∀ loads : List Nat, loads ≠ [] →
      bestIdx loads < loads.length ∧
      (∀ j, j < loads.length →
        loads.getD (bestIdx loads) 0 ≤ loads.getD j 0) ∧
      (∀ j, j < bestIdx loads →
        loads.getD (bestIdx loads) 0 < loads.getD j 0)) ∧
    ((greedyState jobs tc quant).bestMakespanW =
      maxList (loadsOfAssign (baseW jobs tc quant) (assign0 jobs tc quant))) := by
  refine ⟨sortDescW_perm _, sortDescW_sorted _, fun v => sortDescW_filter v _,
    ?_, ?_⟩
  · intro loads hne
    obtain ⟨h1, h2⟩ := bestIdx_spec loads hne
    exact ⟨bestIdx_lt loads hne, h1, h2⟩
  · obtain ⟨h1, _, _⟩ := greedy_inv jobs tc quant (by omega)
    show maxList (loads0 jobs tc quant) = _
    rw [h1]

/-- Claim C9: determinism.  The solver is a pure function: identical inputs
produce identical outputs (teams, job lists, totals) and an identical final
search state (hence identical makespan). -/
theorem claim_C9_determinism (jobs1 jobs2 : List Job) (tc1 tc2 q1 q2 : Nat)
    (h1 : jobs1 = jobs2) (h2 : tc1 = tc2) (h3 : q1 = q2) :
    solveOptimalWithFixed jobs1 tc1 q1 = solveOptimalWithFixed jobs2 tc2 q2 ∧
    solveState jobs1 tc1 q1 = solveState jobs2 tc2 q2 := by
  subst h1
  subst h2
  subst h3
  exact ⟨rfl, rfl⟩

theorem claim_C9_witness :
    ([(⟨"A", 60, 0⟩ : Job)] = [(⟨"A", 60, 0⟩ : Job)] ∧ 2 = 2 ∧ 30 = 30) ∧
    (solveOptimalWithFixed [⟨"A", 60, 0⟩] 2 30 =
        solveOptimalWithFixed [⟨"A", 60, 0⟩] 2 30 ∧
      solveState [⟨"A", 60, 0⟩] 2 30 = solveState [⟨"A", 60, 0⟩] 2 30) :=
  ⟨⟨rfl, rfl, rfl⟩, claim_C9_determinism _ _ 2 2 30 30 rfl rfl rfl⟩

/-- Claim C10: with an empty job list the solver does not fail: it returns
exactly `teamCount` teams, each with an empty job list and zero total. -/
theorem claim_C10_empty_jobs (tc quant : Nat) (htc : 1 ≤ tc) :
    solveOptimalWithFixed [] tc quant =
      List.replicate tc ⟨[], 0⟩ := by
  have hbw := baseW_nil tc quant
  have hsolve : solveState [] tc quant = greedyState [] tc quant := by
    show dfs _ _ (freeItems [] tc quant) 0 (baseW [] tc quant)
      (List.replicate tc []) (greedyState [] tc quant) = _
    rw [show freeItems [] tc quant = [] from rfl]
    simp only [dfs]
    rw [if_neg]
    rw [show (greedyState [] tc quant).bestMakespanW =
      maxList (loads0 [] tc quant) from rfl,
      show loads0 [] tc quant = baseW [] tc quant from rfl, hbw,
      maxList_replicate_zero]
    omega
  show (List.range tc).map _ = _
  have h1 : (solveState [] tc quant).bestAssign =
      List.replicate (baseW [] tc quant).length [] := by
    rw [hsolve]
    rfl
  simp only [h1, show fixedAssign [] tc = List.replicate tc [] from rfl,
    show fixedLoads [] tc = List.replicate tc 0 from rfl, getD_replicate,
    List.map_nil, List.nil_append, List.append_nil, sortJobsDesc, sumItMin,
    List.sum_nil, Nat.add_zero]
  rw [map_range_const]

theorem solve_getD {jobs : List Job} {tc quant : Nat} {i : Nat} (hi : i < tc) :
    (solveOptimalWithFixed jobs tc quant).getD i ⟨[], 0⟩ =
      { jobs := sortJobsDesc ((fixedAssign jobs tc).getD i [] ++
          ((solveState jobs tc quant).bestAssign.getD i []).map
            (fun it => ({ name := it.name, minutes := it.minutes } : JobM))),
        totalMinutes := (fixedLoads jobs tc).getD i 0 +
          sumItMin ((solveState jobs tc quant).bestAssign.getD i []) } := by
  show ((List.range tc).map _).getD i _ = _
  rw [getD_map_range _ tc _ i hi]

theorem range_map_getD_of_len {α : Type} (d : α) {l : List α} {n : Nat}
    (h : l.length = n) : (List.range n).map (fun i => l.getD i d) = l := by
  subst h
  exact range_map_getD d l

theorem map_toJobM_mkItem (q : Nat) : ∀ l : List Job,
    (l.map (mkItem q)).map
      (fun it => ({ name := it.name, minutes := it.minutes } : JobM)) =
    l.map toJobM
  | [] => rfl
  | j :: l => by
    simp only [List.map_cons]
    rw [map_toJobM_mkItem q l]
    rfl

theorem sumItMin_map_mkItem (q : Nat) : ∀ l : List Job,
    sumItMin (l.map (mkItem q)) = (l.map Job.minutes).sum
  | [] => rfl
  | j :: l => by
    have ih := sumItMin_map_mkItem q l
    simp only [List.map_cons, sumItMin, List.sum_cons] at *
    rw [ih]
    rfl

theorem map_minutes_itJM : ∀ l : List Item,
    (l.map (fun it => ({ name := it.name, minutes := it.minutes } : JobM))).map
      JobM.minutes = l.map Item.minutes
  | [] => rfl
  | it :: l => by
    simp only [List.map_cons]
    rw [map_minutes_itJM l]

theorem map_comp_minutes_toJobM : ∀ l : List Job,
    (l.map toJobM).map JobM.minutes = l.map Job.minutes
  | [] => rfl
  | j :: l => by
    simp only [List.map_cons]
    rw [map_comp_minutes_toJobM l]
    rfl

theorem fixed_team_minutes {jobs : List Job} {tc : Nat} {i : Nat}
    (hi : i < tc) :
    (((fixedAssign jobs tc).getD i []).map JobM.minutes).sum =
      (fixedLoads jobs tc).getD i 0 := by
  rw [fixedAssign_getD hi, fixedLoads_getD hi, map_comp_minutes_toJobM]

/-- Claim C1: exact optimality in the quantized weight space.  The makespan
of the assignment returned by the search (quantized fixed weight plus the
weights of the free items on each team, maximized over teams) is the least
element of the set of makespans achievable by any assignment of the free
items to the teams, and it equals the recorded best makespan. -/
theorem claim_C1_exact_optimality (jobs : List Job) (tc quant : Nat)
    (htc : 1 ≤ tc) (hq : 1 ≤ quant) (hpos : ∀ j ∈ jobs, 1 ≤ j.minutes) :
    IsLeast
      (AchievableMakespans (baseW jobs tc quant) (freeItems jobs tc quant) tc)
      (maxList (loadsOfAssign (baseW jobs tc quant)
        (solveState jobs tc quant).bestAssign)) ∧
    (solveState jobs tc quant).bestMakespanW =
      maxList (loadsOfAssign (baseW jobs tc quant)
        (solveState jobs tc quant).bestAssign) := by
  obtain ⟨c1, ⟨g1, g2, g3⟩, c3, c4, c5, c6⟩ :=
    solveState_post jobs tc quant (by omega)
  constructor
  · constructor
    · exact ⟨(solveState jobs tc quant).bestAssign, g1, g2, rfl⟩
    · rintro m ⟨asg, ha1, ha2, rfl⟩
      have hble := bestCompletion_le_assign (freeItems jobs tc quant)
        (baseW jobs tc quant) asg (by rw [baseW_length]; exact ha1)
        (baseW_ne_nil (by omega)) ha2
      calc maxList (loadsOfAssign (baseW jobs tc quant)
            (solveState jobs tc quant).bestAssign)
          = (solveState jobs tc quant).bestMakespanW := g3.symm
        _ ≤ bestCompletion (freeItems jobs tc quant) (baseW jobs tc quant) := c4
        _ ≤ maxList (loadsOfAssign (baseW jobs tc quant) asg) := hble
  · exact g3

/-- Claim C8: monotonic improvement.  The final best makespan (in quantized
weight units) is at most the greedy baseline's makespan, both as recorded
and as recomputed from the returned assignment. -/
theorem claim_C8_monotonic_improvement (jobs : List Job) (tc quant : Nat)
    (htc : 1 ≤ tc) (hq : 1 ≤ quant) (hpos : ∀ j ∈ jobs, 1 ≤ j.minutes) :
    (solveState jobs tc quant).bestMakespanW ≤
      (greedyState jobs tc quant).bestMakespanW ∧
    maxList (loadsOfAssign (baseW jobs tc quant)
        (solveState jobs tc quant).bestAssign) ≤
      maxList (loadsOfAssign (baseW jobs tc quant) (assign0 jobs tc quant)) := by
  obtain ⟨c1, ⟨g1, g2, g3⟩, _, _, _, _⟩ := solveState_post jobs tc quant (by omega)
  obtain ⟨h1, _, _⟩ := greedy_inv jobs tc quant (by omega)
  refine ⟨c1, ?_⟩
  rw [← g3, ← h1]
  exact c1

/-- Claim C6: strict-improvement tie-breaking.  A branch whose new load would
reach the current best makespan is skipped (equality rejected); at a terminal
node the best solution is replaced only on a strictly smaller makespan; and
when the greedy baseline is already optimal, the returned assignment is
exactly the greedy one. -/
theorem claim_C6_strict_improvement (jobs : List Job) (tc quant : Nat)
    (htc : 1 ≤ tc) (hq : 1 ≤ quant) (hpos : ∀ j ∈ jobs, 1 ≤ j.minutes) :
    (∀ (w : Nat) (it : Item)
      (child : List Nat → List (List Item) → BB → BB)
      (loads : List Nat) (assign : List (List Item)) (i : Nat)
      (is tried : List Nat) (s : BB),
      loads.getD i 0 ∉ tried → s.bestMakespanW ≤ loads.getD i 0 + w →
      tryTeams w it child loads assign (i :: is) tried s =
        tryTeams w it child loads assign is (loads.getD i 0 :: tried) s) ∧
    (∀ (av bm idx : Nat) (loads : List Nat) (assign : List (List Item))
      (s : BB), s.bestMakespanW ≤ maxList loads →
      dfs av bm [] idx loads assign s = s) ∧
    ((∀ m ∈ AchievableMakespans (baseW jobs tc quant)
        (freeItems jobs tc quant) tc,
        (greedyState jobs tc quant).bestMakespanW ≤ m) →
      (solveState jobs tc quant).bestAssign =
        (greedyState jobs tc quant).bestAssign) := by
  refine ⟨?_, ?_, ?_⟩
  · intro w it child loads assign i is tried s hmem hskip
    simp only [tryTeams, if_neg hmem, if_pos hskip]
  · intro av bm idx loads assign s h
    simp only [dfs, if_neg (Nat.not_lt.mpr h)]
  · intro hopt
    by_contra hne
    obtain ⟨c1, ⟨g1, g2, g3⟩, c3, c4, c5, c6⟩ :=
      solveState_post jobs tc quant (by omega)
    have hlt := c5 hne
    have hmem : maxList (loadsOfAssign (baseW jobs tc quant)
        (solveState jobs tc quant).bestAssign) ∈
        AchievableMakespans (baseW jobs tc quant)
          (freeItems jobs tc quant) tc :=
      ⟨_, g1, g2, rfl⟩
    have hle := hopt _ hmem
    rw [← g3] at hle
    omega

/-- Claim C3: fixed-assignment fidelity.  A job pinned to a team in
`[1, teamCount]` appears in that team's output job list; a job whose
`fixedTeam` is out of range (0, negative, or greater than `teamCount`) lands
in the free pool that the search distributes. -/
theorem claim_C3_fixed_fidelity (jobs : List Job) (tc quant : Nat)
    (htc : 1 ≤ tc) (hq : 1 ≤ quant) (hpos : ∀ j ∈ jobs, 1 ≤ j.minutes) :
    (∀ j ∈ jobs, 1 ≤ j.fixedTeam → j.fixedTeam ≤ (tc : Int) →
      toJobM j ∈ ((solveOptimalWithFixed jobs tc quant).getD (teamIdx j)
        ⟨[], 0⟩).jobs) ∧
    (∀ j ∈ jobs, ¬(1 ≤ j.fixedTeam ∧ j.fixedTeam ≤ (tc : Int)) →
      j ∈ freeJobs jobs tc ∧
      mkItem (quantQ quant) j ∈ freeItems jobs tc quant) := by
  have hiff : ∀ j : Job, inFixedRange tc j = true ↔
      (1 ≤ j.fixedTeam ∧ j.fixedTeam ≤ (tc : Int)) := by
    intro j
    simp [inFixedRange, Bool.and_eq_true, decide_eq_true_eq]
  constructor
  · intro j hj h1 h2
    have hin : inFixedRange tc j = true := (hiff j).mpr ⟨h1, h2⟩
    have hti : teamIdx j < tc := teamIdx_lt_of_inFixedRange hin
    rw [solve_getD hti]
    show toJobM j ∈ sortJobsDesc _
    refine (sortJobsDesc_perm _).mem_iff.mpr ?_
    apply List.mem_append_left
    rw [fixedAssign_getD hti]
    exact List.mem_map_of_mem toJobM (List.mem_filter.mpr ⟨hj, by simp [hin]⟩)
  · intro j hj hn
    have hin : inFixedRange tc j = false := by
      rw [Bool.eq_false_iff]
      intro hb
      exact hn ((hiff j).mp hb)
    refine ⟨?_, ?_⟩
    · rw [freeJobs_eq_filter]
      exact List.mem_filter.mpr ⟨hj, by simp [hin]⟩
    · refine (sortDescW_perm _).mem_iff.mpr ?_
      apply List.mem_map_of_mem
      rw [freeJobs_eq_filter]
      exact List.mem_filter.mpr ⟨hj, by simp [hin]⟩

/-- Claim C2: conservation.  The team totals sum to the total input minutes,
and the multiset of output jobs across all teams is exactly the multiset of
input jobs. -/
theorem claim_C2_conservation (jobs : List Job) (tc quant : Nat)
    (htc : 1 ≤ tc) (hq : 1 ≤ quant) (hpos : ∀ j ∈ jobs, 1 ≤ j.minutes) :
    ((solveOptimalWithFixed jobs tc quant).map TeamOut.totalMinutes).sum =
      (jobs.map Job.minutes).sum ∧
    (((solveOptimalWithFixed jobs tc quant).map TeamOut.jobs).flatten).Perm
      (jobs.map toJobM) := by
  obtain ⟨c1, ⟨g1, g2, g3⟩, _, _, _, _⟩ := solveState_post jobs tc quant (by omega)
  have hsplit := (List.filter_append_perm (fun j => inFixedRange tc j) jobs)
  constructor
  · have hmt : (solveOptimalWithFixed jobs tc quant).map TeamOut.totalMinutes =
        (List.range tc).map (fun i => (fixedLoads jobs tc).getD i 0 +
          sumItMin ((solveState jobs tc quant).bestAssign.getD i [])) := by
      show ((List.range tc).map _).map TeamOut.totalMinutes = _
      rw [List.map_map]
      rfl
    rw [hmt, sum_map_add]
    rw [range_map_getD_of_len 0 (fixedLoads_length jobs tc)]
    have hsecond : ((List.range tc).map fun i =>
        sumItMin ((solveState jobs tc quant).bestAssign.getD i [])).sum =
        sumItMin (freeItems jobs tc quant) := by
      rw [show (fun i => sumItMin ((solveState jobs tc quant).bestAssign.getD i [])) =
        (sumItMin ∘ fun i => (solveState jobs tc quant).bestAssign.getD i []) from rfl,
        ← List.map_map, range_map_getD_of_len [] g1, ← sumItMin_flatten,
        sumItMin_perm g2]
    rw [hsecond, fixedLoads_sum]
    have hfree : sumItMin (freeItems jobs tc quant) =
        ((jobs.filter fun j => !inFixedRange tc j).map Job.minutes).sum := by
      show sumItMin (sortDescW ((freeJobs jobs tc).map (mkItem (quantQ quant)))) = _
      rw [sumItMin_perm (sortDescW_perm _), sumItMin_map_mkItem,
        freeJobs_eq_filter]
    rw [hfree]
    have htot := (hsplit.map Job.minutes).sum_eq
    rw [List.map_append, List.sum_append] at htot
    exact htot
  · have hmj : (solveOptimalWithFixed jobs tc quant).map TeamOut.jobs =
        (List.range tc).map (fun i =>
          sortJobsDesc ((fixedAssign jobs tc).getD i [] ++
            ((solveState jobs tc quant).bestAssign.getD i []).map
              (fun it => ({ name := it.name, minutes := it.minutes } : JobM)))) := by
      show ((List.range tc).map _).map TeamOut.jobs = _
      rw [List.map_map]
      rfl
    rw [hmj]
    refine (flatten_map_perm _ _ _ (fun i _ => sortJobsDesc_perm _)).trans ?_
    refine (flatten_map_append _ _ _).trans ?_
    rw [range_map_getD_of_len [] (fixedAssign_length jobs tc)]
    have hsnd : ((List.range tc).map fun i =>
        ((solveState jobs tc quant).bestAssign.getD i []).map
          (fun it => ({ name := it.name, minutes := it.minutes } : JobM))).flatten =
        ((solveState jobs tc quant).bestAssign.flatten).map
          (fun it => ({ name := it.name, minutes := it.minutes } : JobM)) := by
      rw [show (fun i => ((solveState jobs tc quant).bestAssign.getD i []).map
          (fun it => ({ name := it.name, minutes := it.minutes } : JobM))) =
        (List.map (fun it => ({ name := it.name, minutes := it.minutes } : JobM)) ∘
          fun i => (solveState jobs tc quant).bestAssign.getD i []) from rfl,
        ← List.map_map, range_map_getD_of_len [] g1, ← List.map_flatten]
    rw [hsnd]
    have hfixed := fixedAssign_flatten jobs tc
    have hfreepart : (((solveState jobs tc quant).bestAssign.flatten).map
        (fun it => ({ name := it.name, minutes := it.minutes } : JobM))).Perm
        ((jobs.filter fun j => !inFixedRange tc j).map toJobM) := by
      refine (g2.map _).trans ?_
      refine ((sortDescW_perm _).map _).trans ?_
      rw [map_toJobM_mkItem, freeJobs_eq_filter]
    refine (hfixed.append hfreepart).trans ?_
    rw [← List.map_append]
    exact hsplit.map toJobM

/-- Claim C7 counterexample: with jobs `A` (free, 10 min) and `B` (pinned to
team 1, 10 min) and one team, the output list is `[B, A]` — fixed jobs come
first among equal durations — while sorting the input-ordered jobs stably by
duration would give `[A, B]`; the tie-stability-relative-to-input-order
reading fails, already on the duration-10 filter. -/
theorem claim_C7_counterexample :
    ((solveOptimalWithFixed [⟨"A", 10, 0⟩, ⟨"B", 10, 1⟩] 1 1).getD 0
        ⟨[], 0⟩).jobs ≠
      sortJobsDesc (([(⟨"A", 10, 0⟩ : Job), ⟨"B", 10, 1⟩]).map toJobM) ∧
    ((solveOptimalWithFixed [⟨"A", 10, 0⟩, ⟨"B", 10, 1⟩] 1 1).getD 0
        ⟨[], 0⟩).jobs.filter (fun j => j.minutes == 10) ≠
      (([(⟨"A", 10, 0⟩ : Job), ⟨"B", 10, 1⟩]).map toJobM).filter
        (fun j => j.minutes == 10) := by
  constructor
  · decide
  · decide

/-- Claim C7 (amended): solution assembly.  Each team's output list is the
stable descending-by-minutes sort of its fixed jobs followed by its assigned
free items (so ties keep the fixed-jobs-then-free-items order, the fixed jobs
and the free items each in their own prior order, not global input order);
`totalMinutes` is the exact sum of the unquantized durations of the team's
jobs. -/
theorem claim_C7_assembly (jobs : List Job) (tc quant : Nat)
    (htc : 1 ≤ tc) (hq : 1 ≤ quant) (hpos : ∀ j ∈ jobs, 1 ≤ j.minutes) :
    ∀ i, i < tc →
      ((solveOptimalWithFixed jobs tc quant).getD i ⟨[], 0⟩).jobs =
        sortJobsDesc ((fixedAssign jobs tc).getD i [] ++
          ((solveState jobs tc quant).bestAssign.getD i []).map
            (fun it => ({ name := it.name, minutes := it.minutes } : JobM))) ∧
      ((solveOptimalWithFixed jobs tc quant).getD i ⟨[], 0⟩).jobs.Pairwise
        (fun a b => b.minutes ≤ a.minutes) ∧
      (∀ v, ((solveOptimalWithFixed jobs tc quant).getD i ⟨[], 0⟩).jobs.filter
          (fun j => j.minutes == v) =
        ((fixedAssign jobs tc).getD i [] ++
          ((solveState jobs tc quant).bestAssign.getD i []).map
            (fun it => ({ name := it.name, minutes := it.minutes } : JobM))).filter
          (fun j => j.minutes == v)) ∧
      ((solveOptimalWithFixed jobs tc quant).getD i ⟨[], 0⟩).totalMinutes =
        (((solveOptimalWithFixed jobs tc quant).getD i ⟨[], 0⟩).jobs.map
          JobM.minutes).sum := by
  intro i hi
  rw [solve_getD hi]
  refine ⟨rfl, sortJobsDesc_sorted _, fun v => sortJobsDesc_filter v _, ?_⟩
  show (fixedLoads jobs tc).getD i 0 +
      sumItMin ((solveState jobs tc quant).bestAssign.getD i []) = _
  rw [((sortJobsDesc_perm _).map JobM.minutes).sum_eq, List.map_append,
    List.sum_append, fixed_team_minutes hi, map_minutes_itJM]
  rfl

/-! ### Closed witnesses instantiating the claim theorems -/

theorem claim_C1_witness :
    (1 ≤ 2 ∧ 1 ≤ 1 ∧ ∀ j ∈ exampleJobs, 1 ≤ j.minutes) ∧
    (IsLeast
      (AchievableMakespans (baseW exampleJobs 2 1) (freeItems exampleJobs 2 1) 2)
      (maxList (loadsOfAssign (baseW exampleJobs 2 1)
        (solveState exampleJobs 2 1).bestAssign)) ∧
    (solveState exampleJobs 2 1).bestMakespanW =
      maxList (loadsOfAssign (baseW exampleJobs 2 1)
        (solveState exampleJobs 2 1).bestAssign)) :=
  ⟨⟨by decide, by decide, by decide⟩,
    claim_C1_exact_optimality exampleJobs 2 1 (by decide) (by decide) (by decide)⟩

theorem claim_C2_witness :
    (1 ≤ 2 ∧ 1 ≤ 1 ∧ ∀ j ∈ exampleJobs, 1 ≤ j.minutes) ∧
    (((solveOptimalWithFixed exampleJobs 2 1).map TeamOut.totalMinutes).sum =
      (exampleJobs.map Job.minutes).sum ∧
    (((solveOptimalWithFixed exampleJobs 2 1).map TeamOut.jobs).flatten).Perm
      (exampleJobs.map toJobM)) :=
  ⟨⟨by decide, by decide, by decide⟩,
    claim_C2_conservation exampleJobs 2 1 (by decide) (by decide) (by decide)⟩

theorem claim_C3_witness :
    (1 ≤ 2 ∧ 1 ≤ 1 ∧ ∀ j ∈ exampleJobs, 1 ≤ j.minutes) ∧
    ((∀ j ∈ exampleJobs, 1 ≤ j.fixedTeam → j.fixedTeam ≤ (2 : Int) →
      toJobM j ∈ ((solveOptimalWithFixed exampleJobs 2 1).getD (teamIdx j)
        ⟨[], 0⟩).jobs) ∧
    (∀ j ∈ exampleJobs, ¬(1 ≤ j.fixedTeam ∧ j.fixedTeam ≤ (2 : Int)) →
      j ∈ freeJobs exampleJobs 2 ∧
      mkItem (quantQ 1) j ∈ freeItems exampleJobs 2 1)) :=
  ⟨⟨by decide, by decide, by decide⟩,
    claim_C3_fixed_fidelity exampleJobs 2 1 (by decide) (by decide) (by decide)⟩

theorem claim_C4_witness :
    (1 ≤ 2 ∧ 1 ≤ 1) ∧
    ((∀ it ∈ freeItems exampleJobs 2 1,
      it.w = max 1 (jsRound it.minutes (quantQ 1))) ∧
    (∀ i, i < 2 → (baseW exampleJobs 2 1).getD i 0 =
      (if 0 < (fixedLoads exampleJobs 2).getD i 0 ∧
          jsRound ((fixedLoads exampleJobs 2).getD i 0) (quantQ 1) = 0 then 1
        else jsRound ((fixedLoads exampleJobs 2).getD i 0) (quantQ 1))) ∧
    quantQ 1 = 1 ∧
    ((∀ j ∈ exampleJobs, 1 ≤ j.minutes) →
      ∀ it ∈ freeItems exampleJobs 2 1, it.w = it.minutes)) :=
  ⟨⟨by decide, by decide⟩,
    claim_C4_quantization exampleJobs 2 1 (by decide) (by decide)⟩

theorem claim_C5_witness :
    (1 ≤ 2 ∧ 1 ≤ 1) ∧
    (((freeItems exampleJobs 2 1).Perm
      ((freeJobs exampleJobs 2).map (mkItem (quantQ 1)))) ∧
    ((freeItems exampleJobs 2 1).Pairwise (fun a b => b.w ≤ a.w)) ∧
    (∀ v, (freeItems exampleJobs 2 1).filter (fun it => it.w == v) =
      ((freeJobs exampleJobs 2).map (mkItem (quantQ 1))).filter
        (fun it => it.w == v)) ∧
    (∀ loads : List Nat, loads ≠ [] →
      bestIdx loads < loads.length ∧
      (∀ j, j < loads.length →
        loads.getD (bestIdx loads) 0 ≤ loads.getD j 0) ∧
      (∀ j, j < bestIdx loads →
        loads.getD (bestIdx loads) 0 < loads.getD j 0)) ∧
    ((greedyState exampleJobs 2 1).bestMakespanW =
      maxList (loadsOfAssign (baseW exampleJobs 2 1) (assign0 exampleJobs 2 1)))) :=
  ⟨⟨by decide, by decide⟩,
    claim_C5_greedy_baseline exampleJobs 2 1 (by decide) (by decide)⟩

theorem claim_C6_witness :
    (1 ≤ 2 ∧ 1 ≤ 1 ∧ ∀ j ∈ exampleJobs, 1 ≤ j.minutes) ∧
    ((∀ (w : Nat) (it : Item)
      (child : List Nat → List (List Item) → BB → BB)
      (loads : List Nat) (assign : List (List Item)) (i : Nat)
      (is tried : List Nat) (s : BB),
      loads.getD i 0 ∉ tried → s.bestMakespanW ≤ loads.getD i 0 + w →
      tryTeams w it child loads assign (i :: is) tried s =
        tryTeams w it child loads assign is (loads.getD i 0 :: tried) s) ∧
    (∀ (av bm idx : Nat) (loads : List Nat) (assign : List (List Item))
      (s : BB), s.bestMakespanW ≤ maxList loads →
      dfs av bm [] idx loads assign s = s) ∧
    ((∀ m ∈ AchievableMakespans (baseW exampleJobs 2 1)
        (freeItems exampleJobs 2 1) 2,
        (greedyState exampleJobs 2 1).bestMakespanW ≤ m) →
      (solveState exampleJobs 2 1).bestAssign =
        (greedyState exampleJobs 2 1).bestAssign)) :=
  ⟨⟨by decide, by decide, by decide⟩,
    claim_C6_strict_improvement exampleJobs 2 1 (by decide) (by decide) (by decide)⟩

theorem claim_C7_witness :
    (1 ≤ 2 ∧ 1 ≤ 1 ∧ ∀ j ∈ exampleJobs, 1 ≤ j.minutes) ∧
    (∀ i, i < 2 →
      ((solveOptimalWithFixed exampleJobs 2 1).getD i ⟨[], 0⟩).jobs =
        sortJobsDesc ((fixedAssign exampleJobs 2).getD i [] ++
          ((solveState exampleJobs 2 1).bestAssign.getD i []).map
            (fun it => ({ name := it.name, minutes := it.minutes } : JobM))) ∧
      ((solveOptimalWithFixed exampleJobs 2 1).getD i ⟨[], 0⟩).jobs.Pairwise
        (fun a b => b.minutes ≤ a.minutes) ∧
      (∀ v, ((solveOptimalWithFixed exampleJobs 2 1).getD i ⟨[], 0⟩).jobs.filter
          (fun j => j.minutes == v) =
        ((fixedAssign exampleJobs 2).getD i [] ++
          ((solveState exampleJobs 2 1).bestAssign.getD i []).map
            (fun it => ({ name := it.name, minutes := it.minutes } : JobM))).filter
          (fun j => j.minutes == v)) ∧
      ((solveOptimalWithFixed exampleJobs 2 1).getD i ⟨[], 0⟩).totalMinutes =
        (((solveOptimalWithFixed exampleJobs 2 1).getD i ⟨[], 0⟩).jobs.map
          JobM.minutes).sum) :=
  ⟨⟨by decide, by decide, by decide⟩,
    claim_C7_assembly exampleJobs 2 1 (by decide) (by decide) (by decide)⟩

theorem claim_C8_witness :
    (1 ≤ 2 ∧ 1 ≤ 1 ∧ ∀ j ∈ exampleJobs, 1 ≤ j.minutes) ∧
    ((solveState exampleJobs 2 1).bestMakespanW ≤
      (greedyState exampleJobs 2 1).bestMakespanW ∧
    maxList (loadsOfAssign (baseW exampleJobs 2 1)
        (solveState exampleJobs 2 1).bestAssign) ≤
      maxList (loadsOfAssign (baseW exampleJobs 2 1) (assign0 exampleJobs 2 1))) :=
  ⟨⟨by decide, by decide, by decide⟩,
    claim_C8_monotonic_improvement exampleJobs 2 1 (by decide) (by decide)
      (by decide)⟩

theorem claim_C10_witness :
    1 ≤ 3 ∧ solveOptimalWithFixed [] 3 15 = List.replicate 3 ⟨[], 0⟩ :=
  ⟨by decide, claim_C10_empty_jobs 3 15 (by decide)⟩

end BJ
